import Mathlib

/-
Verification development for the gcsfuse repository sample.

Part 1 embeds internal/fs/wrappers/monitoring.go: the `fsErrStr` error
aggregation function and the `monitoring` wrapper around a
fuseutil.FileSystem, whose every method runs the wrapped method once and
records metrics via `recordOp`.

Part 2 embeds the read-cache core (Cache Manager, Cache Entry, Download
Job, Eviction Policy, Cache Handle).  The cache implementation itself is
not part of the given source sample (only its integration test
tools/integration_tests/read_cache/read_only_test.go is), so those
definitions are modelled from the specification, as marked on each one.
-/

namespace GcsFuse

/-! ## Part 1: monitoring wrapper (internal/fs/wrappers/monitoring.go) -/

/-- Modelled from Go: an error value as seen by `fsErrStr`.  `msg` is what
`Error()` returns; `errno` is the `syscall.Errno` that `errors.As` finds in
the wrapping chain, when one exists.  A Go `error` variable is `Option GoError`
(`none` is `nil`). -/
structure GoError where
  msg : String
  errno : Option Nat

/-- Modelled from Go's syscall package: `Errno(n).Error()`.  Only two facts
about it are used: it is a function of `n`, and it is never empty. -/
def errnoString (n : Nat) : String :=
  "errno " ++ toString n

/-- Modelled from the spec: `DefaultFSError` is a fixed package-level error
(the single aggregate bucket for uncommon errors); its defining file is not
part of the source sample.  It wraps errno 5 (EIO). -/
def DefaultFSError : GoError :=
  { msg := errnoString 5, errno := some 5 }

/-- Go method `Error()` on the modelled error value. -/
def GoError.error (e : GoError) : String :=
  e.msg

/-- Embeds `fsErrStr` (monitoring.go lines 72-81): nil maps to the empty
string, an error wrapping a `syscall.Errno` maps to that errno's message,
anything else maps to `DefaultFSError.Error()`. -/
def fsErrStr : Option GoError → String
  | none => ""
  | some e =>
    match e.errno with
    | some n => errnoString n
    | none => DefaultFSError.error

/-- The 29 fuseutil.FileSystem methods that the monitoring wrapper
instruments with `recordOp` (monitoring.go lines 143-402). -/
inductive FSMethod where
  | statFS | lookUpInode | getInodeAttributes | setInodeAttributes
  | forgetInode | batchForget | mkDir | mkNode | createFile | createLink
  | createSymlink | rename | rmDir | unlink | openDir | readDir
  | releaseDirHandle | openFile | readFile | writeFile | syncFile
  | flushFile | releaseFileHandle | readSymlink | removeXattr | getXattr
  | listXattr | setXattr | fallocate
deriving DecidableEq

/-- The method-name string each wrapper method passes to `recordOp`. -/
def methodName : FSMethod → String
  | FSMethod.statFS => "StatFS"
  | FSMethod.lookUpInode => "LookUpInode"
  | FSMethod.getInodeAttributes => "GetInodeAttributes"
  | FSMethod.setInodeAttributes => "SetInodeAttributes"
  | FSMethod.forgetInode => "ForgetInode"
  | FSMethod.batchForget => "BatchForget"
  | FSMethod.mkDir => "MkDir"
  | FSMethod.mkNode => "MkNode"
  | FSMethod.createFile => "CreateFile"
  | FSMethod.createLink => "CreateLink"
  | FSMethod.createSymlink => "CreateSymlink"
  | FSMethod.rename => "Rename"
  | FSMethod.rmDir => "RmDir"
  | FSMethod.unlink => "Unlink"
  | FSMethod.openDir => "OpenDir"
  | FSMethod.readDir => "ReadDir"
  | FSMethod.releaseDirHandle => "ReleaseDirHandle"
  | FSMethod.openFile => "OpenFile"
  | FSMethod.readFile => "ReadFile"
  | FSMethod.writeFile => "WriteFile"
  | FSMethod.syncFile => "SyncFile"
  | FSMethod.flushFile => "FlushFile"
  | FSMethod.releaseFileHandle => "ReleaseFileHandle"
  | FSMethod.readSymlink => "ReadSymlink"
  | FSMethod.removeXattr => "RemoveXattr"
  | FSMethod.getXattr => "GetXattr"
  | FSMethod.listXattr => "ListXattr"
  | FSMethod.setXattr => "SetXattr"
  | FSMethod.fallocate => "Fallocate"

/-- The three opencensus measures recorded by `recordOp`, as event lists:
`fs/ops_count` increments tagged by method, `fs/ops_error_count` increments
tagged by (method, fsErrStr), and `fs/ops_latency` values tagged by method. -/
structure MetricsLog where
  opsCount : List String
  opsErrorCount : List (String × String)
  opsLatency : List (String × Nat)

/-- Embeds `recordOp` (monitoring.go lines 84-125): record the op count,
then the error count when the error is non-nil (tagged with `fsErrStr`),
then the latency.  Wall-clock latency is an abstract parameter. -/
def recordOp (method : String) (latency : Nat) (fsErr : Option GoError)
    (log : MetricsLog) : MetricsLog :=
  let log1 : MetricsLog := { log with opsCount := log.opsCount ++ [method] }
  let log2 : MetricsLog :=
    match fsErr with
    | some _ =>
      { log1 with opsErrorCount := log1.opsErrorCount ++ [(method, fsErrStr fsErr)] }
    | none => log1
  { log2 with opsLatency := log2.opsLatency ++ [(method, latency)] }

/-- Modelled from Go: the behavior of a wrapped fuseutil.FileSystem.  A
method takes the context and the op (passed by pointer, so the callee may
fill it in) and an internal state, and returns the new internal state, the
possibly-updated op, and the returned error. -/
def FSImpl (Ctx Op σ : Type) : Type :=
  FSMethod → Ctx → σ → Op → σ × Op × Option GoError

/-- Embeds one method of the `monitoring` wrapper (monitoring.go lines
143-402; every method follows the same three-line pattern): run the wrapped
method, record the op via `recordOp`, and return the wrapped method's error
unchanged. -/
def monitoringCall {Ctx Op σ : Type} (impl : FSImpl Ctx Op σ) (m : FSMethod)
    (ctx : Ctx) (latency : Nat) (s : σ) (op : Op) (log : MetricsLog) :
    σ × Op × Option GoError × MetricsLog :=
  let t := impl m ctx s op
  (t.1, t.2.1, t.2.2, recordOp (methodName m) latency t.2.2 log)

/-- Instrumentation used to state that the wrapper invokes the wrapped
filesystem exactly once with the same arguments: the same implementation,
with every call it receives appended to a trace. -/
def traced {Ctx Op σ : Type} (impl : FSImpl Ctx Op σ) :
    FSImpl Ctx Op (σ × List (FSMethod × Ctx × Op)) :=
  fun m ctx s op =>
    let t := impl m ctx s.1 op
    ((t.1, s.2 ++ [(m, ctx, op)]), t.2.1, t.2.2)

/-! ## Part 2: read-cache core, modelled from the spec

The cache implementation is not part of the source sample; every
definition in this part is modelled from spec.md sections 2-5. -/

/-- Modelled from the spec: the byte content of one object generation, a
function from byte offset to byte value. -/
def Content : Type :=
  Nat → Nat

/-- Modelled from the spec (section 6): the object store collaborator.
`content path gen` is the immutable byte content of generation `gen` of the
object at `path`; `size path gen` is its declared size. -/
structure ObjectStore where
  content : String → Nat → Content
  size : String → Nat → Nat

/-- Modelled from the spec (section 3): a Cache Entry's status. -/
inductive EntryStatus where
  | pending | downloading | complete | invalidated | evicting
deriving DecidableEq

/-- Modelled from the spec: an Invalidated or Evicting entry is dead; the
others are live (usable by new readers). -/
def EntryStatus.isLive : EntryStatus → Bool
  | EntryStatus.invalidated => false
  | EntryStatus.evicting => false
  | _ => true

/-- Modelled from the spec (section 3): the in-memory Cache Entry for one
(object path, generation): backing file content and durable length,
`downloadedBytes` watermark, status, active-reader count, last-access
timestamp, and total expected size from object metadata. -/
structure CacheEntry where
  path : String
  generation : Nat
  fileContent : Content
  fileLen : Nat
  downloadedBytes : Nat
  status : EntryStatus
  readerCount : Nat
  lastAccess : Nat
  totalSize : Nat

/-- Modelled from the spec (section 4.1): the Cache Manager's state: the
entry index plus the set of live Download Jobs keyed by (path, generation),
at most one per live entry. -/
structure CacheManager where
  entries : List CacheEntry
  jobs : List (String × Nat)

/-- Modelled from the spec: lookup of the current (live) entry for an
object path in the Manager's index. -/
def findLive (entries : List CacheEntry) (path : String) : Option CacheEntry :=
  entries.find? fun e => e.path == path && e.status.isLive

/-- Modelled from the spec: a freshly created Cache Entry: empty backing
file, zero watermark, Pending status, no readers. -/
def newEntry (store : ObjectStore) (path : String) (gen now : Nat) : CacheEntry :=
  { path := path, generation := gen, fileContent := fun _ => 0, fileLen := 0,
    downloadedBytes := 0, status := EntryStatus.pending, readerCount := 0,
    lastAccess := now, totalSize := store.size path gen }

/-- Modelled from the spec (sections 3, 4.1): mark every live entry for an
object path Invalidated (generation change or upstream staleness signal). -/
def invalidatePath (entries : List CacheEntry) (path : String) : List CacheEntry :=
  entries.map fun e =>
    if e.path == path && e.status.isLive then
      { e with status := EntryStatus.invalidated }
    else e

/-- Modelled from the spec (section 4.1): the result of Cache Manager
`resolve`: either a Cache Entry, or the no-cache sentinel that makes the
caller fall back to direct reads. -/
inductive ResolveResult where
  | entry (e : CacheEntry)
  | noCache

/-- Modelled from the spec (section 4.1): Cache Manager `resolve`: return
the live entry when its generation matches; on a generation change
invalidate the old entry and create a new one; create on a miss.
`canCreate = false` models the Cache Store failing to create a backing
file (disk full, permission denied) or caching globally disabled; resolve
then degrades to the no-cache sentinel instead of failing. -/
def resolve (store : ObjectStore) (m : CacheManager) (path : String)
    (gen now : Nat) (canCreate : Bool) : ResolveResult × CacheManager :=
  match findLive m.entries path with
  | some e =>
    if e.generation = gen then
      (ResolveResult.entry e, m)
    else if canCreate then
      (ResolveResult.entry (newEntry store path gen now),
        { m with entries := newEntry store path gen now :: invalidatePath m.entries path })
    else
      (ResolveResult.noCache, { m with entries := invalidatePath m.entries path })
  | none =>
    if canCreate then
      (ResolveResult.entry (newEntry store path gen now),
        { m with entries := newEntry store path gen now :: m.entries })
    else
      (ResolveResult.noCache, m)

/-- Modelled from the spec (sections 3, 4.2): whether a Download Job is
live for the given (path, generation). -/
def jobRunning (m : CacheManager) (path : String) (gen : Nat) : Bool :=
  m.jobs.contains (path, gen)

/-- Modelled from the spec (section 4.3 step 2): start a Download Job for
(path, generation) unless one is already running (at most one live Job per
entry, enforced by the Manager). -/
def startJob (m : CacheManager) (path : String) (gen : Nat) : CacheManager :=
  if jobRunning m path gen then m else { m with jobs := (path, gen) :: m.jobs }

/-- Modelled from the spec (section 4.2): one Download Job chunk: fetch the
next `chunk` bytes (clamped to the declared size) from the object store,
write them durably to the backing file, then advance the watermark.
Returns the stepped entry and the number of bytes fetched over the
network by this step. -/
def jobStepNet (store : ObjectStore) (chunk : Nat) (e : CacheEntry) :
    CacheEntry × Nat :=
  if e.downloadedBytes < e.totalSize then
    let tgt := min (e.downloadedBytes + chunk) e.totalSize
    ({ e with
        fileContent := fun i =>
          if i < tgt then store.content e.path e.generation i else e.fileContent i,
        fileLen := tgt,
        downloadedBytes := tgt,
        status := if tgt = e.totalSize then EntryStatus.complete else EntryStatus.downloading },
      tgt - e.downloadedBytes)
  else
    ({ e with status := EntryStatus.complete }, 0)

/-- Modelled from the spec: `n` Download Job chunks in sequence, with the
total network bytes fetched. -/
def jobSteps (store : ObjectStore) (chunk : Nat) : Nat → CacheEntry → CacheEntry × Nat
  | 0, e => (e, 0)
  | Nat.succ n, e =>
    let p := jobStepNet store chunk e
    let q := jobSteps store chunk n p.1
    (q.1, p.2 + q.2)

/-- Modelled from the spec: number of chunks a waiting reader needs the Job
to run so the watermark reaches `target` from `wm`. -/
def stepsNeeded (chunk wm target : Nat) : Nat :=
  if chunk = 0 then 0 else (target - wm + chunk - 1) / chunk

/-- Modelled from the spec (section 4.3 step 4): run the Download Job until
its watermark covers `target` (the bounded wait of a blocked reader,
observing Job progress). -/
def jobRunTo (store : ObjectStore) (chunk : Nat) (e : CacheEntry) (target : Nat) :
    CacheEntry × Nat :=
  jobSteps store chunk (stepsNeeded chunk e.downloadedBytes target) e

/-- Modelled from the spec: replace the live entry with key
(e'.path, e'.generation) by `e'` in the Manager's index (publishing Job
progress or a last-access update). -/
def updateEntry (m : CacheManager) (e' : CacheEntry) : CacheManager :=
  { m with
    entries := m.entries.map fun e =>
      if e.path == e'.path && e.generation == e'.generation && e.status.isLive then
        e'
      else e }

/-- Modelled from the spec (section 4.3): where the bytes of one read were
served from: an entry's local backing file, or a direct range read. -/
inductive ReadSource where
  | cacheFile (path : String) (generation : Nat)
  | direct
deriving DecidableEq

/-- Modelled from the spec (section 4.3): the outcome of one
`read(offset, length)`: the bytes (indexed relative to `offset`), the
length, the serving source, the hit/miss classification (range covered by
the watermark at request time), and the network bytes fetched while
serving this read (Job chunks it waited for plus any direct range read). -/
structure ReadResult where
  bytes : Nat → Nat
  len : Nat
  source : ReadSource
  hit : Bool
  netDelta : Nat

/-- Modelled from the spec (section 4.3): a direct range read from the
object store, bypassing the cache. -/
def directResult (store : ObjectStore) (path : String) (gen off len : Nat) :
    ReadResult :=
  { bytes := fun i => store.content path gen (off + i), len := len,
    source := ReadSource.direct, hit := false, netDelta := len }

/-- Modelled from the spec (section 4.3): a read served from an entry's
backing file. -/
def cacheResult (e : CacheEntry) (off len : Nat) (hit : Bool) (net : Nat) :
    ReadResult :=
  { bytes := fun i => e.fileContent (off + i), len := len,
    source := ReadSource.cacheFile e.path e.generation, hit := hit,
    netDelta := net }

/-- Modelled from the spec (sections 3, 4.3): the per-file-descriptor Cache
Handle: pinned object path and expected generation, the end offset of the
previous read (sequential detection), the count of non-contiguous reads,
and whether cache participation is disabled for the handle's lifetime. -/
structure CacheHandle where
  path : String
  expectedGen : Nat
  lastReadEnd : Option Nat
  randomCount : Nat
  cacheDisabled : Bool

/-- Result of one Cache Handle read: the served bytes plus the updated
handle and Manager states. -/
structure ReadOutcome where
  result : ReadResult
  handle : CacheHandle
  mgr : CacheManager

/-- Modelled from the spec (section 4.3): the Cache Handle read decision
procedure.  1. resolve the entry (no-cache sentinel degrades to a direct
read).  2. on a sequential pattern with no running Job, start one.  3. if
the range fits within the watermark, serve from the backing file (hit).
4. else on a sequential pattern with a running Job, block until the
watermark covers the range and serve from the backing file; if the wait
cannot cover the range (Job finished short), fall back to a direct range
read.  5. else (random pattern) bypass the cache with a direct range read,
and disable cache participation once `threshold` non-contiguous reads are
seen. -/
def handleRead (store : ObjectStore) (chunk threshold : Nat) (canCreate : Bool)
    (now : Nat) (h : CacheHandle) (m : CacheManager) (off len : Nat) :
    ReadOutcome :=
  let hNext : CacheHandle := { h with lastReadEnd := some (off + len) }
  if h.cacheDisabled then
    { result := directResult store h.path h.expectedGen off len,
      handle := hNext, mgr := m }
  else
    match resolve store m h.path h.expectedGen now canCreate with
    | (ResolveResult.noCache, m1) =>
      { result := directResult store h.path h.expectedGen off len,
        handle := hNext, mgr := m1 }
    | (ResolveResult.entry e, m1) =>
      let seq := off == 0 || h.lastReadEnd == some off
      let m2 :=
        if seq && !(jobRunning m1 h.path h.expectedGen) then
          startJob m1 h.path h.expectedGen
        else m1
      if off + len ≤ e.downloadedBytes then
        { result := cacheResult e off len true 0,
          handle := hNext,
          mgr := updateEntry m2 { e with lastAccess := now } }
      else if seq && jobRunning m2 h.path h.expectedGen then
        let p := jobRunTo store chunk e (off + len)
        if off + len ≤ p.1.downloadedBytes then
          { result := cacheResult p.1 off len false p.2,
            handle := hNext,
            mgr := updateEntry m2 { p.1 with lastAccess := now } }
        else
          { result :=
              { directResult store h.path h.expectedGen off len with
                  netDelta := p.2 + len },
            handle := hNext,
            mgr := updateEntry m2 p.1 }
      else
        let h1 := { hNext with randomCount := h.randomCount + 1 }
        let h2 := if threshold ≤ h1.randomCount then { h1 with cacheDisabled := true } else h1
        { result := directResult store h.path h.expectedGen off len,
          handle := h2, mgr := m2 }

/-- Modelled from the spec (section 8): a sequence of reads issued through
Cache Handles against the Manager; each element carries the issuing
handle's state and the (offset, length) of the read.  Returns the list of
read outcomes and the final Manager state. -/
def runReads (store : ObjectStore) (chunk threshold : Nat) (canCreate : Bool)
    (now : Nat) :
    CacheManager → List (CacheHandle × Nat × Nat) → List ReadResult × CacheManager
  | m, [] => ([], m)
  | m, t :: rest =>
    let o := handleRead store chunk threshold canCreate now t.1 m t.2.1 t.2.2
    let r := runReads store chunk threshold canCreate now o.mgr rest
    (o.result :: r.1, r.2)

/-! ### Eviction Policy (spec section 4.4) -/

/-- Modelled from the spec (section 3): entry statuses whose backing-file
size counts against the cache size budget (Complete and Downloading). -/
def countsForSize (e : CacheEntry) : Bool :=
  match e.status with
  | EntryStatus.complete => true
  | EntryStatus.downloading => true
  | _ => false

/-- Modelled from the spec (section 3): total on-disk cache size: sum of
backing-file sizes across Complete and Downloading entries. -/
def totalCacheSize (entries : List CacheEntry) : Nat :=
  ((entries.filter countsForSize).map fun e => e.fileLen).sum

/-- Modelled from the spec (section 4.4): eviction ordering among
zero-reader candidates: Invalidated entries first regardless of recency,
then least-recently-used by last-access. -/
def victimBefore (a b : CacheEntry) : Bool :=
  if a.status = EntryStatus.invalidated then
    if b.status = EntryStatus.invalidated then a.lastAccess ≤ b.lastAccess else true
  else
    if b.status = EntryStatus.invalidated then false else a.lastAccess ≤ b.lastAccess

/-- Modelled from the spec (section 4.4): select the best eviction victim
among entries with reader count zero, returning it and the remaining
entries; `none` when no zero-reader candidate exists. -/
def removeBest : List CacheEntry → Option (CacheEntry × List CacheEntry)
  | [] => none
  | e :: es =>
    if e.readerCount = 0 then
      match removeBest es with
      | none => some (e, es)
      | some p => if victimBefore e p.1 then some (e, es) else some (p.1, e :: p.2)
    else
      match removeBest es with
      | none => none
      | some p => some (p.1, e :: p.2)

/-- Modelled from the spec (section 3): drop Invalidated entries whose
reader count is zero (always eviction candidates regardless of budget). -/
def dropInvalidated (entries : List CacheEntry) : List CacheEntry :=
  entries.filter fun e =>
    !(decide (e.status = EntryStatus.invalidated) && decide (e.readerCount = 0))

/-- Modelled from the spec (section 4.4): delete zero-reader victims until
the total size is at or below budget or no candidate remains (fuelled by
the number of entries; each round removes one entry). -/
def evictLoop (budget : Nat) : Nat → List CacheEntry → List CacheEntry
  | 0, es => es
  | Nat.succ n, es =>
    if totalCacheSize es ≤ budget then es
    else
      match removeBest es with
      | none => es
      | some p => evictLoop budget n p.2

/-- Modelled from the spec (section 4.4): one full eviction pass: remove
zero-reader Invalidated entries, then LRU-evict zero-reader entries until
the budget is respected. -/
def evictRun (budget : Nat) (m : CacheManager) : CacheManager :=
  let es := dropInvalidated m.entries
  { m with entries := evictLoop budget es.length es }

/-! ### System operations and invariants (spec sections 3, 5) -/

/-- Modelled from the spec: one background Download Job chunk applied to
the live entry for (path, generation) inside the Manager's index.  The
guard on liveness embeds cooperative cancellation: a Job whose entry was
invalidated or is being evicted makes no further progress. -/
def jobAdvance (store : ObjectStore) (chunk : Nat) (m : CacheManager)
    (path : String) (gen : Nat) : CacheManager :=
  { m with
    entries := m.entries.map fun e =>
      if e.path == path && e.generation == gen && e.status.isLive then
        (jobStepNet store chunk e).1
      else e }

/-- Modelled from the spec (section 4.2): the Download Job running to
completion in the background after being started (it streams the whole
object from offset 0 regardless of which reads are waiting).  Returns the
new Manager state and the network bytes fetched. -/
def jobFinish (store : ObjectStore) (chunk : Nat) (path : String) (gen : Nat)
    (m : CacheManager) : CacheManager × Nat :=
  match findLive m.entries path with
  | some e =>
    if e.generation = gen then
      let p := jobRunTo store chunk e e.totalSize
      (updateEntry m p.1, p.2)
    else (m, 0)
  | none => (m, 0)

/-- Modelled from the spec (sections 3, 9): adjust the active-reader count
of the live entry for (path, generation): handle acquire increments,
handle release decrements. -/
def adjustReader (m : CacheManager) (path : String) (gen : Nat) (f : Nat → Nat) :
    CacheManager :=
  { m with
    entries := m.entries.map fun e =>
      if e.path == path && e.generation == gen && e.status.isLive then
        { e with readerCount := f e.readerCount }
      else e }

/-- Modelled from the spec (section 5): the operations of the cache core,
serialized by the Manager's and entries' locks: a Cache Handle read, one
Download Job chunk, an eviction pass, an upstream invalidation signal,
reader-count acquire and release, and a bare Manager resolve. -/
inductive SysOp where
  | readOp (h : CacheHandle) (off len now : Nat)
  | jobOp (path : String) (gen : Nat)
  | evictOp (budget : Nat)
  | invalidateOp (path : String)
  | acquireOp (path : String) (gen : Nat)
  | releaseOp (path : String) (gen : Nat)
  | resolveOp (path : String) (gen now : Nat) (canCreate : Bool)

/-- Modelled from the spec: the effect of one serialized operation on the
Cache Manager state. -/
def applySysOp (store : ObjectStore) (chunk threshold : Nat) (canCreate : Bool) :
    SysOp → CacheManager → CacheManager
  | SysOp.readOp h off len now, m =>
    (handleRead store chunk threshold canCreate now h m off len).mgr
  | SysOp.jobOp path gen, m => jobAdvance store chunk m path gen
  | SysOp.evictOp budget, m => evictRun budget m
  | SysOp.invalidateOp path, m => { m with entries := invalidatePath m.entries path }
  | SysOp.acquireOp path gen, m => adjustReader m path gen (fun n => n + 1)
  | SysOp.releaseOp path gen, m => adjustReader m path gen (fun n => n - 1)
  | SysOp.resolveOp path gen now cc, m => (resolve store m path gen now cc).2

/-- Cache-correctness invariant of one entry: every byte below the
watermark in the backing file equals the object store's byte of that
entry's generation (spec section 5: the watermark counts only durable
writes of the Job's stream). -/
def entryContentOk (store : ObjectStore) (e : CacheEntry) : Prop :=
  ∀ i, i < e.downloadedBytes → e.fileContent i = store.content e.path e.generation i

/-- Cache-correctness invariant of the whole index. -/
def mgrContentOk (store : ObjectStore) (m : CacheManager) : Prop :=
  ∀ e ∈ m.entries, entryContentOk store e

/-- Spec section 3 invariant: exactly one live entry per object path. -/
def uniqueLive (entries : List CacheEntry) : Prop :=
  ∀ a ∈ entries, ∀ b ∈ entries,
    a.status.isLive = true → b.status.isLive = true → a.path = b.path → a = b

/-- The watermark that the live entry for (path, generation) currently
publishes, when such an entry exists. -/
def livewm (m : CacheManager) (path : String) (gen : Nat) : Option Nat :=
  match findLive m.entries path with
  | some e => if e.generation = gen then some e.downloadedBytes else none
  | none => none

/-- Spec section 3 invariant: the watermark never exceeds the durably
written length of the backing file, for every entry of the index. -/
def wmDurable (m : CacheManager) : Prop :=
  ∀ e ∈ m.entries, e.downloadedBytes ≤ e.fileLen

/-! ### Concrete scenario inputs (spec section 8) -/

/-- Object path used by the concrete scenarios (the test file "foo" of
read_only_test.go). -/
def fooPath : String :=
  "foo"

/-- One mebibyte, the scenario chunk size and read size
(read_only_test.go line 30). -/
def mib : Nat :=
  1048576

/-- A fresh handle on `fooPath` at generation 1. -/
def freshFooHandle : CacheHandle :=
  { path := fooPath, expectedGen := 1, lastReadEnd := none, randomCount := 0,
    cacheDisabled := false }

/-- An empty Cache Manager. -/
def emptyMgr : CacheManager :=
  { entries := [], jobs := [] }

/-- Store for the two-concurrent-handles scenario: a 4-byte object. -/
def c7store : ObjectStore :=
  { content := fun _ _ i => (i + 7) % 256, size := fun _ _ => 4 }

/-- First handle's read of the whole 4-byte object (offset 0, length 4,
chunk size 2): a miss that starts the Job and blocks until covered. -/
def c7o1 : ReadOutcome :=
  handleRead c7store 2 3 true 0 freshFooHandle emptyMgr 0 4

/-- Second handle's read of the same range, issued after the first: served
by the entry the first call created. -/
def c7o2 : ReadOutcome :=
  handleRead c7store 2 3 true 1 freshFooHandle c7o1.mgr 0 4

/-- Store for the 3 MiB sequential scenario of spec section 8 and
read_only_test.go: object `fooPath` of size 3 MiB. -/
def c8store : ObjectStore :=
  { content := fun _ _ i => i % 256, size := fun _ _ => 3 * mib }

/-- Scenario read 1: offset 0, length 1 MiB (chunk size 1 MiB): a miss
that starts the Job. -/
def c8o1 : ReadOutcome :=
  handleRead c8store mib 3 true 0 freshFooHandle emptyMgr 0 mib

/-- The started Job finishing its stream in the background between the
first and second reads. -/
def c8bg : CacheManager × Nat :=
  jobFinish c8store mib fooPath 1 c8o1.mgr

/-- Scenario read 2: offset 1 MiB, length 1 MiB, same handle. -/
def c8o2 : ReadOutcome :=
  handleRead c8store mib 3 true 1 c8o1.handle c8bg.1 mib mib

/-- Scenario read 3: offset 2 MiB, length 1 MiB, same handle. -/
def c8o3 : ReadOutcome :=
  handleRead c8store mib 3 true 2 c8o2.handle c8o2.mgr (2 * mib) mib

/-- Total network bytes fetched across the whole 3 MiB scenario. -/
def c8netTotal : Nat :=
  c8o1.result.netDelta + c8bg.2 + c8o2.result.netDelta + c8o3.result.netDelta

/-- A small store used by concrete witness instances: an 8-byte object
whose byte at offset i is i + 1. -/
def wStore : ObjectStore :=
  { content := fun _ _ i => i + 1, size := fun _ _ => 8 }

/-- A half-downloaded entry for `fooPath` generation 1 with one active
reader: watermark 4 of 8, backing file matching the store. -/
def wEntry : CacheEntry :=
  { path := fooPath, generation := 1, fileContent := fun i => i + 1, fileLen := 4,
    downloadedBytes := 4, status := EntryStatus.downloading, readerCount := 1,
    lastAccess := 0, totalSize := 8 }

/-- A Manager holding `wEntry` with its Download Job running. -/
def wMgr : CacheManager :=
  { entries := [wEntry], jobs := [(fooPath, 1)] }

/-- A stale entry for `fooPath` at generation 1, used to witness
generation-change invalidation. -/
def wOldEntry : CacheEntry :=
  { path := fooPath, generation := 1, fileContent := fun i => i + 1, fileLen := 8,
    downloadedBytes := 8, status := EntryStatus.complete, readerCount := 0,
    lastAccess := 3, totalSize := 8 }

/-- A Manager holding only the stale `wOldEntry` and no running jobs. -/
def wOldMgr : CacheManager :=
  { entries := [wOldEntry], jobs := [] }

/-- A concrete error wrapping errno 32 (EPIPE), for witnesses. -/
def wErrErrno : GoError :=
  { msg := errnoString 32, errno := some 32 }

/-- A concrete non-errno error, for witnesses. -/
def wErrPlain : GoError :=
  { msg := "object stat failed", errno := none }

/-! ## Helper lemmas -/

lemma findLive_props {es : List CacheEntry} {path : String} {e : CacheEntry}
    (h : findLive es path = some e) :
    e ∈ es ∧ e.path = path ∧ e.status.isLive = true := by
  unfold findLive at h
  have hmem := List.mem_of_find?_eq_some h
  have hp := List.find?_some h
  rw [Bool.and_eq_true] at hp
  refine ⟨hmem, ?_, hp.2⟩
  have := hp.1
  simpa using this

lemma newEntry_contentOk (store : ObjectStore) (path : String) (gen now : Nat) :
    entryContentOk store (newEntry store path gen now) := by
  intro i hi
  simp [newEntry] at hi

lemma resolve_entry_props {store : ObjectStore} {m : CacheManager} {path : String}
    {gen now : Nat} {cc : Bool} {e : CacheEntry} {m' : CacheManager}
    (h : resolve store m path gen now cc = (ResolveResult.entry e, m')) :
    e.path = path ∧ e.generation = gen ∧
      (e ∈ m.entries ∨ e = newEntry store path gen now) := by
  unfold resolve at h
  cases hf : findLive m.entries path with
  | some e0 =>
    rw [hf] at h
    dsimp only at h
    by_cases hg : e0.generation = gen
    · rw [if_pos hg] at h
      obtain ⟨he, _⟩ := Prod.mk.injEq .. ▸ h
      cases h
      have hp := findLive_props hf
      exact ⟨hp.2.1, hg, Or.inl hp.1⟩
    · rw [if_neg hg] at h
      by_cases hc : cc = true
      · subst hc
        rw [if_pos rfl] at h
        cases h
        exact ⟨rfl, rfl, Or.inr rfl⟩
      · have : cc = false := by
          cases cc
          · rfl
          · exact absurd rfl hc
        subst this
        simp at h
  | none =>
    rw [hf] at h
    dsimp only at h
    by_cases hc : cc = true
    · subst hc
      rw [if_pos rfl] at h
      cases h
      exact ⟨rfl, rfl, Or.inr rfl⟩
    · have : cc = false := by
        cases cc
        · rfl
        · exact absurd rfl hc
      subst this
      simp at h

lemma jobStepNet_key (store : ObjectStore) (chunk : Nat) (e : CacheEntry) :
    (jobStepNet store chunk e).1.path = e.path ∧
      (jobStepNet store chunk e).1.generation = e.generation ∧
      (jobStepNet store chunk e).1.totalSize = e.totalSize := by
  unfold jobStepNet
  split
  · exact ⟨rfl, rfl, rfl⟩
  · exact ⟨rfl, rfl, rfl⟩

lemma jobStepNet_wm_le (store : ObjectStore) (chunk : Nat) (e : CacheEntry) :
    e.downloadedBytes ≤ (jobStepNet store chunk e).1.downloadedBytes := by
  unfold jobStepNet
  split
  · rename_i hlt
    have h1 : e.downloadedBytes ≤ e.downloadedBytes + chunk := Nat.le_add_right _ _
    have h2 : e.downloadedBytes ≤ e.totalSize := Nat.le_of_lt hlt
    exact le_min h1 h2
  · exact le_refl _

lemma jobStepNet_live (store : ObjectStore) (chunk : Nat) (e : CacheEntry) :
    (jobStepNet store chunk e).1.status.isLive = true := by
  unfold jobStepNet
  split
  · dsimp only
    split
    · rfl
    · rfl
  · rfl

lemma jobStepNet_contentOk {store : ObjectStore} {e : CacheEntry}
    (chunk : Nat) (h : entryContentOk store e) :
    entryContentOk store (jobStepNet store chunk e).1 := by
  unfold jobStepNet
  split
  · intro i hi
    dsimp only at hi ⊢
    rw [if_pos hi]
  · intro i hi
    exact h i hi

lemma jobStepNet_durable {store : ObjectStore} {e : CacheEntry} (chunk : Nat)
    (h : e.downloadedBytes ≤ e.fileLen) :
    (jobStepNet store chunk e).1.downloadedBytes ≤ (jobStepNet store chunk e).1.fileLen := by
  unfold jobStepNet
  split
  · exact le_refl _
  · exact h

lemma jobSteps_key (store : ObjectStore) (chunk : Nat) (n : Nat) (e : CacheEntry) :
    (jobSteps store chunk n e).1.path = e.path ∧
      (jobSteps store chunk n e).1.generation = e.generation ∧
      (jobSteps store chunk n e).1.totalSize = e.totalSize := by
  induction n generalizing e with
  | zero => exact ⟨rfl, rfl, rfl⟩
  | succ k ih =>
    have h1 := jobStepNet_key store chunk e
    have h2 := ih (jobStepNet store chunk e).1
    unfold jobSteps
    exact ⟨h2.1.trans h1.1, h2.2.1.trans h1.2.1, h2.2.2.trans h1.2.2⟩

lemma jobSteps_wm_le (store : ObjectStore) (chunk : Nat) (n : Nat) (e : CacheEntry) :
    e.downloadedBytes ≤ (jobSteps store chunk n e).1.downloadedBytes := by
  induction n generalizing e with
  | zero => exact le_refl _
  | succ k ih =>
    have h1 := jobStepNet_wm_le store chunk e
    have h2 := ih (jobStepNet store chunk e).1
    unfold jobSteps
    exact h1.trans h2

lemma jobSteps_live {store : ObjectStore} {chunk : Nat} {e : CacheEntry} (n : Nat)
    (h : e.status.isLive = true) :
    (jobSteps store chunk n e).1.status.isLive = true := by
  induction n generalizing e with
  | zero => exact h
  | succ k ih =>
    unfold jobSteps
    exact ih (jobStepNet_live store chunk e)

lemma jobSteps_contentOk {store : ObjectStore} {e : CacheEntry}
    (chunk n : Nat) (h : entryContentOk store e) :
    entryContentOk store (jobSteps store chunk n e).1 := by
  induction n generalizing e with
  | zero => exact h
  | succ k ih =>
    unfold jobSteps
    exact ih (jobStepNet_contentOk chunk h)

lemma jobSteps_durable {store : ObjectStore} {e : CacheEntry} (chunk n : Nat)
    (h : e.downloadedBytes ≤ e.fileLen) :
    (jobSteps store chunk n e).1.downloadedBytes ≤ (jobSteps store chunk n e).1.fileLen := by
  induction n generalizing e with
  | zero => exact h
  | succ k ih =>
    unfold jobSteps
    exact ih (jobStepNet_durable chunk h)

lemma jobRunTo_key (store : ObjectStore) (chunk : Nat) (e : CacheEntry) (target : Nat) :
    (jobRunTo store chunk e target).1.path = e.path ∧
      (jobRunTo store chunk e target).1.generation = e.generation ∧
      (jobRunTo store chunk e target).1.totalSize = e.totalSize :=
  jobSteps_key store chunk _ e

lemma jobRunTo_wm_le (store : ObjectStore) (chunk : Nat) (e : CacheEntry) (target : Nat) :
    e.downloadedBytes ≤ (jobRunTo store chunk e target).1.downloadedBytes :=
  jobSteps_wm_le store chunk _ e

lemma jobRunTo_live {store : ObjectStore} {chunk : Nat} {e : CacheEntry} (target : Nat)
    (h : e.status.isLive = true) :
    (jobRunTo store chunk e target).1.status.isLive = true :=
  jobSteps_live _ h

lemma jobRunTo_contentOk {store : ObjectStore} {e : CacheEntry}
    (chunk target : Nat) (h : entryContentOk store e) :
    entryContentOk store (jobRunTo store chunk e target).1 :=
  jobSteps_contentOk chunk _ h

lemma jobRunTo_durable {store : ObjectStore} {e : CacheEntry} (chunk target : Nat)
    (h : e.downloadedBytes ≤ e.fileLen) :
    (jobRunTo store chunk e target).1.downloadedBytes ≤ (jobRunTo store chunk e target).1.fileLen :=
  jobSteps_durable chunk _ h

lemma invalidatePath_contentOk {store : ObjectStore} {es : List CacheEntry}
    {path : String} (h : ∀ e ∈ es, entryContentOk store e) :
    ∀ e' ∈ invalidatePath es path, entryContentOk store e' := by
  intro e' he'
  unfold invalidatePath at he'
  obtain ⟨e, hm, hfe⟩ := List.mem_map.mp he'
  by_cases hc : (e.path == path && e.status.isLive) = true
  · rw [if_pos hc] at hfe
    subst hfe
    exact h e hm
  · rw [if_neg hc] at hfe
    subst hfe
    exact h e hm

lemma updateEntry_contentOk {store : ObjectStore} {m : CacheManager}
    {e' : CacheEntry} (hm : mgrContentOk store m) (he : entryContentOk store e') :
    mgrContentOk store (updateEntry m e') := by
  intro x hx
  unfold updateEntry at hx
  obtain ⟨e, hmem, hfe⟩ := List.mem_map.mp hx
  by_cases hc : (e.path == e'.path && e.generation == e'.generation && e.status.isLive) = true
  · rw [if_pos hc] at hfe
    subst hfe
    exact he
  · rw [if_neg hc] at hfe
    subst hfe
    exact hm e hmem

lemma resolve_contentOk {store : ObjectStore} {m : CacheManager} {path : String}
    {gen now : Nat} {cc : Bool} (hm : mgrContentOk store m) :
    mgrContentOk store (resolve store m path gen now cc).2 := by
  unfold resolve
  cases hf : findLive m.entries path with
  | some e0 =>
    dsimp only
    by_cases hg : e0.generation = gen
    · rw [if_pos hg]
      exact hm
    · rw [if_neg hg]
      cases cc with
      | true =>
        rw [if_pos rfl]
        intro x hx
        rcases List.mem_cons.mp hx with h1 | h2
        · subst h1
          exact newEntry_contentOk store path gen now
        · exact invalidatePath_contentOk hm x h2
      | false =>
        simp only [Bool.false_eq_true, if_false]
        exact fun x hx => invalidatePath_contentOk hm x hx
  | none =>
    dsimp only
    cases cc with
    | true =>
      rw [if_pos rfl]
      intro x hx
      rcases List.mem_cons.mp hx with h1 | h2
      · subst h1
        exact newEntry_contentOk store path gen now
      · exact hm x h2
    | false =>
      simp only [Bool.false_eq_true, if_false]
      exact hm

lemma resolve_entry_contentOk {store : ObjectStore} {m : CacheManager}
    {path : String} {gen now : Nat} {cc : Bool} {e : CacheEntry} {m' : CacheManager}
    (hm : mgrContentOk store m)
    (h : resolve store m path gen now cc = (ResolveResult.entry e, m')) :
    entryContentOk store e := by
  rcases (resolve_entry_props h).2.2 with hmem | hnew
  · exact hm e hmem
  · subst hnew
    exact newEntry_contentOk store path gen now

lemma startJob_entries (m : CacheManager) (path : String) (gen : Nat) :
    (startJob m path gen).entries = m.entries := by
  unfold startJob
  split
  · rfl
  · rfl

lemma handleRead_correct {store : ObjectStore} {chunk threshold : Nat}
    {cc : Bool} {now : Nat} {h : CacheHandle} {m : CacheManager} {off len : Nat}
    (hInv : mgrContentOk store m) :
    (handleRead store chunk threshold cc now h m off len).result.len = len ∧
      ∀ i, i < len →
        (handleRead store chunk threshold cc now h m off len).result.bytes i =
          store.content h.path h.expectedGen (off + i) := by
  unfold handleRead
  split
  · exact ⟨rfl, fun i _ => rfl⟩
  · split
    · exact ⟨rfl, fun i _ => rfl⟩
    · rename_i e m1 heq
      have hprops := resolve_entry_props heq
      have hok : entryContentOk store e := resolve_entry_contentOk hInv heq
      have hbyte : ∀ i, i < len →
          off + len ≤ (jobRunTo store chunk e (off + len)).1.downloadedBytes →
          (jobRunTo store chunk e (off + len)).1.fileContent (off + i) =
            store.content h.path h.expectedGen (off + i) := by
        intro i hi hcov2
        have hkey := jobRunTo_key store chunk e (off + len)
        have hok2 : entryContentOk store (jobRunTo store chunk e (off + len)).1 :=
          jobRunTo_contentOk chunk (off + len) hok
        have hlt : off + i < (jobRunTo store chunk e (off + len)).1.downloadedBytes :=
          lt_of_lt_of_le (by omega) hcov2
        have hc := hok2 (off + i) hlt
        rw [hc, hkey.1, hkey.2.1, hprops.1, hprops.2.1]
      dsimp only
      split
      · rename_i hcov
        refine ⟨rfl, fun i hi => ?_⟩
        have hlt : off + i < e.downloadedBytes :=
          lt_of_lt_of_le (by omega) hcov
        have hc := hok (off + i) hlt
        rw [cacheResult]
        dsimp only
        rw [hc, hprops.1, hprops.2.1]
      · split
        · split
          · split
            · rename_i hcov2
              exact ⟨rfl, fun i hi => hbyte i hi hcov2⟩
            · exact ⟨rfl, fun i _ => rfl⟩
          · exact ⟨rfl, fun i _ => rfl⟩
        · split
          · split
            · rename_i hcov2
              exact ⟨rfl, fun i hi => hbyte i hi hcov2⟩
            · exact ⟨rfl, fun i _ => rfl⟩
          · exact ⟨rfl, fun i _ => rfl⟩

lemma handleRead_contentOk {store : ObjectStore} {chunk threshold : Nat}
    {cc : Bool} {now : Nat} {h : CacheHandle} {m : CacheManager} {off len : Nat}
    (hInv : mgrContentOk store m) :
    mgrContentOk store (handleRead store chunk threshold cc now h m off len).mgr := by
  unfold handleRead
  split
  · exact hInv
  · split
    · rename_i m1 heq
      have h2 : m1 = (resolve store m h.path h.expectedGen now cc).2 := by
        rw [heq]
      rw [h2]
      exact resolve_contentOk hInv
    · rename_i e m1 heq
      have hm1 : mgrContentOk store m1 := by
        have h2 : m1 = (resolve store m h.path h.expectedGen now cc).2 := by
          rw [heq]
        rw [h2]
        exact resolve_contentOk hInv
      have hok : entryContentOk store e := resolve_entry_contentOk hInv heq
      have hsj : mgrContentOk store (startJob m1 h.path h.expectedGen) := by
        intro x hx
        rw [startJob_entries] at hx
        exact hm1 x hx
      dsimp only
      split
      · split
        · exact updateEntry_contentOk hsj hok
        · exact updateEntry_contentOk hm1 hok
      · split
        · split
          · split
            · exact updateEntry_contentOk hsj (jobRunTo_contentOk chunk (off + len) hok)
            · exact updateEntry_contentOk hsj (jobRunTo_contentOk chunk (off + len) hok)
          · exact hsj
        · split
          · split
            · exact updateEntry_contentOk hm1 (jobRunTo_contentOk chunk (off + len) hok)
            · exact updateEntry_contentOk hm1 (jobRunTo_contentOk chunk (off + len) hok)
          · exact hm1

lemma handleRead_handle_key (store : ObjectStore) (chunk threshold : Nat)
    (cc : Bool) (now : Nat) (h : CacheHandle) (m : CacheManager) (off len : Nat) :
    (handleRead store chunk threshold cc now h m off len).handle.path = h.path ∧
      (handleRead store chunk threshold cc now h m off len).handle.expectedGen =
        h.expectedGen := by
  unfold handleRead
  split
  · exact ⟨rfl, rfl⟩
  · split
    · exact ⟨rfl, rfl⟩
    · dsimp only
      split
      · exact ⟨rfl, rfl⟩
      · split
        all_goals split
        all_goals split
        all_goals exact ⟨rfl, rfl⟩

/-! ## Claim theorems -/

/-- C1: for every sequence of reads (each an (offset, length) pair) issued
through Cache Handles against objects whose generation does not change
during the sequence (each handle pins its expected generation), the bytes
returned for each read equal the bytes a direct range read from the object
store at the same offset and length would return, regardless of cache
state - cold, partially downloaded, or complete - i.e. for every Manager
state satisfying the content invariant. -/
theorem c1_reads_match_direct (store : ObjectStore) (chunk threshold : Nat)
    (cc : Bool) (now : Nat) (m : CacheManager)
    (reads : List (CacheHandle × Nat × Nat)) (hInv : mgrContentOk store m) :
    List.Forall₂
      (fun t r => r.len = t.2.2 ∧ ∀ i, i < t.2.2 →
        r.bytes i = store.content t.1.path t.1.expectedGen (t.2.1 + i))
      reads (runReads store chunk threshold cc now m reads).1 := by
  induction reads generalizing m with
  | nil => exact List.Forall₂.nil
  | cons t rest ih =>
    unfold runReads
    dsimp only
    refine List.Forall₂.cons ?_ (ih _ (handleRead_contentOk hInv))
    have hc := @handleRead_correct store chunk threshold cc now t.1 m t.2.1 t.2.2 hInv
    exact ⟨hc.1, fun i hi => hc.2 i hi⟩

/-- C1 witness: a concrete two-read sequence on an empty (cold) cache. -/
theorem c1_reads_match_direct_witness :
    mgrContentOk c7store emptyMgr ∧
      List.Forall₂
        (fun t r => r.len = t.2.2 ∧ ∀ i, i < t.2.2 →
          r.bytes i = c7store.content t.1.path t.1.expectedGen (t.2.1 + i))
        [(freshFooHandle, 0, 4), (freshFooHandle, 0, 4)]
        (runReads c7store 2 3 true 0 emptyMgr
          [(freshFooHandle, 0, 4), (freshFooHandle, 0, 4)]).1 := by
  have hInv : mgrContentOk c7store emptyMgr := by
    intro e he
    simp [emptyMgr] at he
  exact ⟨hInv, c1_reads_match_direct c7store 2 3 true 0 emptyMgr
    [(freshFooHandle, 0, 4), (freshFooHandle, 0, 4)] hInv⟩

/-- C2: for every Cache Entry and read of [offset, offset+length): if the
entry's downloadedBytes watermark already covers offset+length and the
entry's generation matches the handle's expected generation, the read is
served from the local backing file only - it is a hit, fetches zero
network bytes, and its source is the entry's backing file. -/
theorem c2_covered_read_no_network (store : ObjectStore) (chunk threshold : Nat)
    (cc : Bool) (now : Nat) (h : CacheHandle) (m : CacheManager) (off len : Nat)
    (e : CacheEntry) (hdis : h.cacheDisabled = false)
    (hfind : findLive m.entries h.path = some e)
    (hgen : e.generation = h.expectedGen)
    (hcov : off + len ≤ e.downloadedBytes) :
    (handleRead store chunk threshold cc now h m off len).result.netDelta = 0 ∧
      (handleRead store chunk threshold cc now h m off len).result.source =
        ReadSource.cacheFile h.path h.expectedGen ∧
      (handleRead store chunk threshold cc now h m off len).result.hit = true := by
  have hres : resolve store m h.path h.expectedGen now cc =
      (ResolveResult.entry e, m) := by
    unfold resolve
    rw [hfind]
    dsimp only
    rw [if_pos hgen]
  unfold handleRead
  simp only [hdis, Bool.false_eq_true, if_false, hres]
  rw [if_pos hcov]
  refine ⟨rfl, ?_, rfl⟩
  show ReadSource.cacheFile e.path e.generation = _
  rw [(findLive_props hfind).2.1, hgen]

/-- C2 witness: a half-downloaded 8-byte entry serving a covered 4-byte
read with no network traffic. -/
theorem c2_covered_read_no_network_witness :
    (handleRead wStore 2 3 true 5 freshFooHandle wMgr 0 4).result.netDelta = 0 ∧
      (handleRead wStore 2 3 true 5 freshFooHandle wMgr 0 4).result.source =
        ReadSource.cacheFile freshFooHandle.path freshFooHandle.expectedGen ∧
      (handleRead wStore 2 3 true 5 freshFooHandle wMgr 0 4).result.hit = true :=
  c2_covered_read_no_network wStore 2 3 true 5 freshFooHandle wMgr 0 4 wEntry
    rfl rfl rfl (by decide)

/-- C3: after a generation change is observed on an object path, no read
ever returns bytes from the prior generation's backing file.  First
conjunct: any read served from a backing file is served from an entry
whose path and generation equal the handle's pinned path and expected
generation - so a reader expecting the new generation can never receive
the old generation's file bytes, even while a Job for the old generation
is still running.  Second conjunct: observing the generation change
(resolve with a different generation) returns a brand-new entry with a
zero watermark, inserts it into the index, and marks every previously
live entry of that path Invalidated. -/
theorem c3_generation_isolation :
    (∀ (store : ObjectStore) (chunk threshold : Nat) (cc : Bool) (now : Nat)
        (h : CacheHandle) (m : CacheManager) (off len : Nat) (p : String) (g : Nat),
        (handleRead store chunk threshold cc now h m off len).result.source =
          ReadSource.cacheFile p g → p = h.path ∧ g = h.expectedGen) ∧
    (∀ (store : ObjectStore) (m : CacheManager) (path : String) (gen now : Nat)
        (e : CacheEntry), findLive m.entries path = some e → e.generation ≠ gen →
        (resolve store m path gen now true).1 =
            ResolveResult.entry (newEntry store path gen now) ∧
          newEntry store path gen now ∈ (resolve store m path gen now true).2.entries ∧
          (newEntry store path gen now).downloadedBytes = 0 ∧
          ∀ x ∈ m.entries, x.path = path → x.status.isLive = true →
            { x with status := EntryStatus.invalidated } ∈
              (resolve store m path gen now true).2.entries) := by
  constructor
  · intro store chunk threshold cc now h m off len p g hsrc
    unfold handleRead at hsrc
    split at hsrc
    · simp [directResult] at hsrc
    · split at hsrc
      · simp [directResult] at hsrc
      · rename_i e m1 heq
        have hprops := resolve_entry_props heq
        dsimp only at hsrc
        split at hsrc
        · simp [cacheResult] at hsrc
          exact ⟨hsrc.1 ▸ hprops.1, hsrc.2 ▸ hprops.2.1⟩
        · split at hsrc
          · split at hsrc
            · split at hsrc
              · simp [cacheResult] at hsrc
                have hkey := jobRunTo_key store chunk e (off + len)
                have h1 : p = e.path := by rw [← hsrc.1, hkey.1]
                have h2 : g = e.generation := by rw [← hsrc.2, hkey.2.1]
                exact ⟨h1.symm ▸ hprops.1, h2.symm ▸ hprops.2.1⟩
              · simp [directResult] at hsrc
            · simp [directResult] at hsrc
          · split at hsrc
            · split at hsrc
              · simp [cacheResult] at hsrc
                have hkey := jobRunTo_key store chunk e (off + len)
                have h1 : p = e.path := by rw [← hsrc.1, hkey.1]
                have h2 : g = e.generation := by rw [← hsrc.2, hkey.2.1]
                exact ⟨h1.symm ▸ hprops.1, h2.symm ▸ hprops.2.1⟩
              · simp [directResult] at hsrc
            · simp [directResult] at hsrc
  · intro store m path gen now e hfind hgen
    have hres : resolve store m path gen now true =
        (ResolveResult.entry (newEntry store path gen now),
          { m with entries := newEntry store path gen now :: invalidatePath m.entries path }) := by
      unfold resolve
      rw [hfind]
      dsimp only
      rw [if_neg hgen, if_pos rfl]
    rw [hres]
    refine ⟨rfl, List.mem_cons_self _ _, rfl, ?_⟩
    intro x hx hpath hlive
    refine List.mem_cons_of_mem _ ?_
    unfold invalidatePath
    refine List.mem_map.mpr ⟨x, hx, ?_⟩
    rw [if_pos]
    rw [Bool.and_eq_true]
    constructor
    · exact beq_iff_eq.mpr hpath
    · exact hlive

/-- C3 witness: a Manager holding a complete generation-1 entry for
`fooPath`; a cache-served read reports that entry's identity, and
resolving generation 2 creates a fresh entry and invalidates the old
one. -/
theorem c3_generation_isolation_witness :
    (fooPath = freshFooHandle.path ∧ 1 = freshFooHandle.expectedGen) ∧
      ((resolve wStore wOldMgr fooPath 2 9 true).1 =
          ResolveResult.entry (newEntry wStore fooPath 2 9) ∧
        newEntry wStore fooPath 2 9 ∈ (resolve wStore wOldMgr fooPath 2 9 true).2.entries ∧
        (newEntry wStore fooPath 2 9).downloadedBytes = 0 ∧
        ∀ x ∈ wOldMgr.entries, x.path = fooPath → x.status.isLive = true →
          { x with status := EntryStatus.invalidated } ∈
            (resolve wStore wOldMgr fooPath 2 9 true).2.entries) := by
  constructor
  · exact c3_generation_isolation.1 wStore 2 3 true 5 freshFooHandle wMgr 0 4
      fooPath 1 rfl
  · exact c3_generation_isolation.2 wStore wOldMgr fooPath 2 9 wOldEntry rfl
      (by decide)

lemma removeBest_keeps_readers {es : List CacheEntry} :
    ∀ p, removeBest es = some p → ∀ e ∈ es, e.readerCount ≠ 0 → e ∈ p.2 := by
  induction es with
  | nil =>
    intro p hp
    cases hp
  | cons a as ih =>
    intro p hp e he hrc
    unfold removeBest at hp
    by_cases ha : a.readerCount = 0
    · rw [if_pos ha] at hp
      have hnota : e ∈ as → e ∈ as := id
      cases hrb : removeBest as with
      | none =>
        rw [hrb] at hp
        dsimp only at hp
        cases hp
        rcases List.mem_cons.mp he with h1 | h2
        · exact absurd ha (h1 ▸ hrc)
        · exact h2
      | some q =>
        rw [hrb] at hp
        dsimp only at hp
        split at hp
        · cases hp
          rcases List.mem_cons.mp he with h1 | h2
          · exact absurd ha (h1 ▸ hrc)
          · exact h2
        · cases hp
          rcases List.mem_cons.mp he with h1 | h2
          · subst h1
            exact List.mem_cons_self _ _
          · exact List.mem_cons_of_mem _ (ih q hrb e h2 hrc)
    · rw [if_neg ha] at hp
      cases hrb : removeBest as with
      | none =>
        rw [hrb] at hp
        dsimp only at hp
        cases hp
      | some q =>
        rw [hrb] at hp
        dsimp only at hp
        cases hp
        rcases List.mem_cons.mp he with h1 | h2
        · subst h1
          exact List.mem_cons_self _ _
        · exact List.mem_cons_of_mem _ (ih q hrb e h2 hrc)

lemma evictLoop_keeps_readers {budget : Nat} :
    ∀ (fuel : Nat) (es : List CacheEntry) (e : CacheEntry),
      e ∈ es → e.readerCount ≠ 0 → e ∈ evictLoop budget fuel es := by
  intro fuel
  induction fuel with
  | zero =>
    intro es e he _
    exact he
  | succ n ih =>
    intro es e he hrc
    unfold evictLoop
    split
    · exact he
    · cases hrb : removeBest es with
      | none => exact he
      | some p => exact ih p.2 e (removeBest_keeps_readers p hrb e he hrc) hrc

lemma dropInvalidated_keeps_readers {es : List CacheEntry} {e : CacheEntry}
    (he : e ∈ es) (hrc : e.readerCount ≠ 0) : e ∈ dropInvalidated es := by
  unfold dropInvalidated
  refine List.mem_filter.mpr ⟨he, ?_⟩
  have h0 : decide (e.readerCount = 0) = false := decide_eq_false hrc
  rw [h0, Bool.and_false]
  rfl

/-- C5: an entry with at least one active reader is never touched by an
eviction pass: the very same entry value (same backing file content, same
durable length, same index record) is still present after `evictRun`, so
eviction neither deletes nor truncates its backing file nor removes it
from the index; only zero-reader entries are ever evicted. -/
theorem c5_readers_never_evicted (budget : Nat) (m : CacheManager) (e : CacheEntry)
    (he : e ∈ m.entries) (hrc : 1 ≤ e.readerCount) :
    e ∈ (evictRun budget m).entries := by
  have hrc0 : e.readerCount ≠ 0 := by omega
  unfold evictRun
  exact evictLoop_keeps_readers _ _ e (dropInvalidated_keeps_readers he hrc0) hrc0

/-- C5 witness: the one-reader entry `wEntry` survives an eviction pass
with budget 0. -/
theorem c5_readers_never_evicted_witness :
    wEntry ∈ wMgr.entries ∧ 1 ≤ wEntry.readerCount ∧
      wEntry ∈ (evictRun 0 wMgr).entries := by
  have hm : wEntry ∈ wMgr.entries := List.mem_cons_self _ _
  exact ⟨hm, by decide, c5_readers_never_evicted 0 wMgr wEntry hm (by decide)⟩

/-- C6: when the Cache Store cannot create a backing file (modelled by
`canCreate = false`), `resolve` returns the no-cache sentinel instead of
propagating an error - both on a cold miss and on a generation change -
and the Cache Handle read path then degrades to a plain direct range
read, so the caller still gets correct bytes; every function of the cache
subsystem is total, so no cache error can abort the mount. -/
theorem c6_create_failure_degrades (store : ObjectStore) (chunk threshold : Nat)
    (now : Nat) (h : CacheHandle) (m : CacheManager) (off len : Nat)
    (path : String) (gen : Nat) :
    (findLive m.entries path = none →
      resolve store m path gen now false = (ResolveResult.noCache, m)) ∧
    (∀ e, findLive m.entries path = some e → e.generation ≠ gen →
      (resolve store m path gen now false).1 = ResolveResult.noCache) ∧
    (h.cacheDisabled = false → findLive m.entries h.path = none →
      (handleRead store chunk threshold false now h m off len).result =
        directResult store h.path h.expectedGen off len) := by
  refine ⟨?_, ?_, ?_⟩
  · intro hfind
    unfold resolve
    rw [hfind]
    rfl
  · intro e hfind hgen
    unfold resolve
    rw [hfind]
    dsimp only
    rw [if_neg hgen]
    rfl
  · intro hdis hfind
    have hres : resolve store m h.path h.expectedGen now false =
        (ResolveResult.noCache, m) := by
      unfold resolve
      rw [hfind]
      rfl
    unfold handleRead
    simp only [hdis, Bool.false_eq_true, if_false, hres]

/-- C6 witness: an empty index with creation failing: resolve degrades to
the sentinel and the read equals a direct read. -/
theorem c6_create_failure_degrades_witness :
    resolve wStore emptyMgr fooPath 1 9 false = (ResolveResult.noCache, emptyMgr) ∧
      (handleRead wStore 2 3 false 9 freshFooHandle emptyMgr 0 4).result =
        directResult wStore freshFooHandle.path freshFooHandle.expectedGen 0 4 :=
  ⟨(c6_create_failure_degrades wStore 2 3 9 freshFooHandle emptyMgr 0 4 fooPath 1).1 rfl,
    (c6_create_failure_degrades wStore 2 3 9 freshFooHandle emptyMgr 0 4 fooPath 1).2.2
      rfl rfl⟩

/-- C7: Manager resolve is idempotent per object identity: once a live
entry for (path, generation) exists, any further resolve for the same key
returns that same entry and leaves the Manager (entries and jobs)
untouched; starting a Job is idempotent once one runs; and in the
concrete two-handle scenario (both handles open the same object at
generation 1 and read offset 0) exactly one Download Job is started, the
second read is a hit, and both handles observe identical bytes. -/
theorem c7_resolve_idempotent :
    (∀ (store : ObjectStore) (m : CacheManager) (path : String) (gen now : Nat)
        (cc : Bool) (e : CacheEntry),
        findLive m.entries path = some e → e.generation = gen →
        resolve store m path gen now cc = (ResolveResult.entry e, m)) ∧
    (∀ (m : CacheManager) (path : String) (gen : Nat),
        jobRunning m path gen = true → startJob m path gen = m) ∧
    (c7o2.mgr.jobs = [(fooPath, 1)] ∧ c7o1.result.hit = false ∧
      c7o2.result.hit = true ∧
      ∀ i, i < 4 → c7o1.result.bytes i = c7o2.result.bytes i) := by
  refine ⟨?_, ?_, ?_, ?_, ?_, ?_⟩
  · intro store m path gen now cc e hfind hgen
    unfold resolve
    rw [hfind]
    dsimp only
    rw [if_pos hgen]
  · intro m path gen hrun
    unfold startJob
    rw [if_pos hrun]
  · decide
  · decide
  · decide
  · decide

/-- C7 witness: the Manager already holding `wEntry` with its running Job:
resolve returns the very entry and state unchanged; starting the Job again
is a no-op. -/
theorem c7_resolve_idempotent_witness :
    resolve wStore wMgr fooPath 1 9 true = (ResolveResult.entry wEntry, wMgr) ∧
      startJob wMgr fooPath 1 = wMgr :=
  ⟨c7_resolve_idempotent.1 wStore wMgr fooPath 1 9 true wEntry rfl rfl,
    c7_resolve_idempotent.2.1 wMgr fooPath 1 (by decide)⟩

lemma jobFinish_contentOk {store : ObjectStore} {chunk : Nat} {path : String}
    {gen : Nat} {m : CacheManager} (hInv : mgrContentOk store m) :
    mgrContentOk store (jobFinish store chunk path gen m).1 := by
  unfold jobFinish
  cases hf : findLive m.entries path with
  | some e =>
    dsimp only
    split
    · exact updateEntry_contentOk hInv
        (jobRunTo_contentOk chunk e.totalSize (hInv e (findLive_props hf).1))
    · exact hInv
  | none => exact hInv

/-- C8: spec section 8 scenario: object `fooPath` of size 3 MiB, chunk
size 1 MiB, one handle reading 1 MiB sequentially at offsets 0, 1 MiB and
2 MiB: the first read is a miss that starts the Download Job and is
served from the backing file after blocking for the watermark; with the
Job finishing in the background, the second and third reads are cache
hits; the total network traffic of the whole scenario is exactly 3 MiB
(each byte fetched exactly once); and every read returns exactly the
object store's bytes at its offset. -/
theorem c8_three_mib_scenario :
    c8o1.result.hit = false ∧
      jobRunning c8o1.mgr fooPath 1 = true ∧
      c8o1.result.source = ReadSource.cacheFile fooPath 1 ∧
      c8o2.result.hit = true ∧
      c8o3.result.hit = true ∧
      c8netTotal = 3 * mib ∧
      (∀ i, i < mib → c8o1.result.bytes i = c8store.content fooPath 1 (0 + i)) ∧
      (∀ i, i < mib → c8o2.result.bytes i = c8store.content fooPath 1 (mib + i)) ∧
      (∀ i, i < mib → c8o3.result.bytes i = c8store.content fooPath 1 (2 * mib + i)) := by
  have hInv0 : mgrContentOk c8store emptyMgr := by
    intro e he
    simp [emptyMgr] at he
  have hInv1 : mgrContentOk c8store c8o1.mgr := handleRead_contentOk hInv0
  have hInv2 : mgrContentOk c8store c8bg.1 := jobFinish_contentOk hInv1
  have hInv3 : mgrContentOk c8store c8o2.mgr := handleRead_contentOk hInv2
  refine ⟨by decide, by decide, by decide, by decide, by decide, by decide, ?_, ?_, ?_⟩
  · intro i hi
    exact (@handleRead_correct c8store mib 3 true 0 freshFooHandle emptyMgr 0 mib
      hInv0).2 i hi
  · intro i hi
    exact (@handleRead_correct c8store mib 3 true 1 c8o1.handle c8bg.1 mib mib
      hInv2).2 i hi
  · intro i hi
    exact (@handleRead_correct c8store mib 3 true 2 c8o2.handle c8o2.mgr (2 * mib) mib
      hInv3).2 i hi

/-- C9: the monitoring wrapper is observationally transparent: for every
filesystem method, input op and context, it returns exactly the wrapped
filesystem's state, op and error (first conjunct: the whole output equals
the wrapped call's output, with the metrics log advanced by `recordOp` as
the only added effect), and it invokes the wrapped filesystem exactly
once with the same method, context and op (second conjunct: the
instrumented trace grows by exactly that one call). -/
theorem c9_monitoring_transparent :
    ∀ (Ctx Op σ : Type) (impl : FSImpl Ctx Op σ) (m : FSMethod) (ctx : Ctx)
      (lat : Nat) (s : σ) (op : Op) (log : MetricsLog)
      (tr : List (FSMethod × Ctx × Op)),
      monitoringCall impl m ctx lat s op log =
        ((impl m ctx s op).1, (impl m ctx s op).2.1, (impl m ctx s op).2.2,
          recordOp (methodName m) lat (impl m ctx s op).2.2 log) ∧
      (monitoringCall (traced impl) m ctx lat (s, tr) op log).1.2 =
        tr ++ [(m, ctx, op)] :=
  fun _ _ _ _ _ _ _ _ _ _ _ => ⟨rfl, rfl⟩

lemma errnoString_ne_empty (n : Nat) : errnoString n ≠ "" := by
  intro h
  have h2 : (errnoString n).length = 0 := by
    rw [h]
    rfl
  rw [errnoString, String.length_append] at h2
  have h3 : "errno ".length = 6 := by decide
  omega

/-- C10: `fsErrStr` is a total, low-cardinality map on errors: it returns
the empty string exactly on nil; a non-nil error that wraps a
`syscall.Errno` maps to that errno's message; and every other non-nil
error maps to the single `DefaultFSError` string, so the outputs for
non-errno errors form a one-element set. -/
theorem c10_fsErrStr_spec :
    (∀ err : Option GoError, fsErrStr err = "" ↔ err = none) ∧
      (∀ (msg : String) (n : Nat),
        fsErrStr (some { msg := msg, errno := some n }) = errnoString n) ∧
      (∀ msg : String,
        fsErrStr (some { msg := msg, errno := none }) = DefaultFSError.error) := by
  refine ⟨?_, fun _ _ => rfl, fun _ => rfl⟩
  intro err
  constructor
  · intro h
    cases err with
    | none => rfl
    | some e =>
      obtain ⟨emsg, eerr⟩ := e
      cases eerr with
      | some n =>
        have h2 : fsErrStr (some ⟨emsg, some n⟩) = errnoString n := rfl
        rw [h2] at h
        exact absurd h (errnoString_ne_empty n)
      | none =>
        have h2 : fsErrStr (some ⟨emsg, none⟩) = DefaultFSError.error := rfl
        rw [h2] at h
        exact absurd h (errnoString_ne_empty 5)
  · intro h
    subst h
    rfl

/-- C10 witness: concrete errors: an errno-wrapping error maps to the
errno message, a plain error maps to the default bucket, and only nil
maps to the empty string. -/
theorem c10_fsErrStr_spec_witness :
    (fsErrStr (some wErrErrno) = "" ↔ (some wErrErrno : Option GoError) = none) ∧
      fsErrStr (some { msg := wErrPlain.msg, errno := some 32 }) = errnoString 32 ∧
      fsErrStr (some { msg := wErrPlain.msg, errno := none }) = DefaultFSError.error :=
  ⟨c10_fsErrStr_spec.1 (some wErrErrno),
    c10_fsErrStr_spec.2.1 wErrPlain.msg 32,
    c10_fsErrStr_spec.2.2 wErrPlain.msg⟩

lemma findLive_map_pred {es : List CacheEntry} {g : CacheEntry → CacheEntry} {q : String}
    (hg : ∀ e ∈ es, ((g e).path == q && (g e).status.isLive) =
      (e.path == q && e.status.isLive)) :
    findLive (es.map g) q = Option.map g (findLive es q) := by
  induction es with
  | nil => rfl
  | cons a as ih =>
    have ha := hg a (List.mem_cons_self a as)
    unfold findLive
    rw [List.map_cons]
    cases hpa : (a.path == q && a.status.isLive) with
    | true =>
      rw [List.find?_cons_of_pos _ (by rw [ha, hpa])]
      have hr : List.find? (fun e : CacheEntry => e.path == q && e.status.isLive)
          (a :: as) = some a :=
        List.find?_cons_of_pos _ hpa
      rw [hr]
      rfl
    | false =>
      rw [List.find?_cons_of_neg _ (by simp [ha, hpa])]
      have hr : List.find? (fun e : CacheEntry => e.path == q && e.status.isLive)
          (a :: as) =
          List.find? (fun e : CacheEntry => e.path == q && e.status.isLive) as :=
        List.find?_cons_of_neg _ (by simp [hpa])
      rw [hr]
      exact ih fun e he => hg e (List.mem_cons_of_mem _ he)

lemma findLive_invalidatePath_self (es : List CacheEntry) (path : String) :
    findLive (invalidatePath es path) path = none := by
  induction es with
  | nil => rfl
  | cons a as ih =>
    unfold invalidatePath at ih ⊢
    rw [List.map_cons]
    by_cases hg : (a.path == path && a.status.isLive) = true
    · rw [if_pos hg]
      unfold findLive
      rw [List.find?_cons_of_neg]
      · exact ih
      · simp [EntryStatus.isLive]
    · rw [if_neg hg]
      unfold findLive
      rw [List.find?_cons_of_neg]
      · exact ih
      · simp only [hg]
        exact Bool.false_ne_true

lemma findLive_invalidatePath_ne {es : List CacheEntry} {path q : String}
    (hne : q ≠ path) :
    findLive (invalidatePath es path) q = findLive es q := by
  have hmap : findLive (invalidatePath es path) q =
      Option.map (fun e => if e.path == path && e.status.isLive then
        { e with status := EntryStatus.invalidated } else e) (findLive es q) := by
    unfold invalidatePath
    refine findLive_map_pred fun e _ => ?_
    by_cases hg : (e.path == path && e.status.isLive) = true
    · rw [if_pos hg]
      have hp : e.path = path := by
        have h1 := (Bool.and_eq_true _ _).mp hg
        exact beq_iff_eq.mp h1.1
      have hq1 : (e.path == q) = false := by
        rw [beq_eq_false_iff_ne]
        rw [hp]
        exact fun hc => hne hc.symm
      dsimp only
      rw [hq1]
      rfl
    · rw [if_neg hg]
  rw [hmap]
  cases hfl : findLive es q with
  | none => rfl
  | some e =>
    have hp := findLive_props hfl
    have hg : (e.path == path && e.status.isLive) = false := by
      have hq1 : (e.path == path) = false := by
        rw [beq_eq_false_iff_ne, hp.2.1]
        exact hne
      rw [hq1, Bool.false_and]
    dsimp only [Option.map]
    rw [if_neg]
    rw [hg]
    exact Bool.false_ne_true

lemma findLive_cons_ne {es : List CacheEntry} {a : CacheEntry} {q : String}
    (h : (a.path == q) = false) :
    findLive (a :: es) q = findLive es q := by
  unfold findLive
  rw [List.find?_cons_of_neg]
  simp [h]

lemma livewm_entries_only (es : List CacheEntry) (j j' : List (String × Nat))
    (q : String) (g0 : Nat) :
    livewm { entries := es, jobs := j } q g0 = livewm { entries := es, jobs := j' } q g0 := by
  rfl

lemma livewm_some_props {m : CacheManager} {q : String} {g0 w : Nat}
    (h : livewm m q g0 = some w) :
    ∃ e, findLive m.entries q = some e ∧ e.generation = g0 ∧ e.downloadedBytes = w := by
  unfold livewm at h
  cases hfl : findLive m.entries q with
  | none =>
    rw [hfl] at h
    cases h
  | some e =>
    rw [hfl] at h
    dsimp only at h
    by_cases hg : e.generation = g0
    · rw [if_pos hg] at h
      cases h
      exact ⟨e, rfl, hg, rfl⟩
    · rw [if_neg hg] at h
      cases h

lemma livewm_map_guarded {m : CacheManager} {P : String} {G : Nat}
    {f : CacheEntry → CacheEntry} {jobs' : List (String × Nat)}
    (hf : ∀ e ∈ m.entries, (e.path == P && e.generation == G && e.status.isLive) = true →
      (f e).path = e.path ∧ (f e).generation = e.generation ∧
        (f e).status.isLive = true ∧ e.downloadedBytes ≤ (f e).downloadedBytes) :
    ∀ (q : String) (g0 w w' : Nat),
      livewm m q g0 = some w →
      livewm (CacheManager.mk (m.entries.map (fun e =>
          if e.path == P && e.generation == G && e.status.isLive then f e else e))
        jobs') q g0 = some w' →
      w ≤ w' := by
  intro q g0 w w' hpre hpost
  obtain ⟨e, hfl, hgen, hwm⟩ := livewm_some_props hpre
  have hmem : e ∈ m.entries := (findLive_props hfl).1
  have hmap : findLive (m.entries.map fun e =>
      if e.path == P && e.generation == G && e.status.isLive then f e else e) q =
      Option.map (fun e =>
        if e.path == P && e.generation == G && e.status.isLive then f e else e)
        (findLive m.entries q) := by
    refine findLive_map_pred fun x hx => ?_
    by_cases hg : (x.path == P && x.generation == G && x.status.isLive) = true
    · rw [if_pos hg]
      obtain ⟨h1, _, h3, _⟩ := hf x hx hg
      rw [h1, h3]
      have hlive : x.status.isLive = true := ((Bool.and_eq_true _ _).mp hg).2
      rw [hlive]
    · rw [if_neg hg]
  obtain ⟨e2, hfl2, hgen2, hwm2⟩ := livewm_some_props hpost
  rw [hmap, hfl] at hfl2
  dsimp only [Option.map] at hfl2
  by_cases hg : (e.path == P && e.generation == G && e.status.isLive) = true
  · rw [if_pos hg] at hfl2
    obtain ⟨_, _, _, h4⟩ := hf e hmem hg
    cases hfl2
    omega
  · rw [if_neg hg] at hfl2
    cases hfl2
    omega

lemma livewm_sublist {es es' : List CacheEntry} {j j' : List (String × Nat)}
    (hu : uniqueLive es) (hsub : es'.Sublist es) :
    ∀ (q : String) (g0 w w' : Nat),
      livewm { entries := es, jobs := j } q g0 = some w →
      livewm { entries := es', jobs := j' } q g0 = some w' →
      w ≤ w' := by
  intro q g0 w w' hpre hpost
  obtain ⟨e, hfl, hgen, hwm⟩ := livewm_some_props hpre
  obtain ⟨e2, hfl2, hgen2, hwm2⟩ := livewm_some_props hpost
  have hp := findLive_props hfl
  have hp2 := findLive_props hfl2
  have hmem2 : e2 ∈ es := hsub.mem hp2.1
  have heq : e = e2 := hu e hp.1 e2 hmem2 hp.2.2 hp2.2.2 (hp.2.1.trans hp2.2.1.symm)
  rw [← heq] at hwm2
  omega

lemma removeBest_sublist : ∀ {es : List CacheEntry} {p : CacheEntry × List CacheEntry},
    removeBest es = some p → p.2.Sublist es := by
  intro es
  induction es with
  | nil =>
    intro p hp
    cases hp
  | cons a as ih =>
    intro p hp
    unfold removeBest at hp
    by_cases ha : a.readerCount = 0
    · rw [if_pos ha] at hp
      cases hrb : removeBest as with
      | none =>
        rw [hrb] at hp
        dsimp only at hp
        cases hp
        exact List.sublist_cons_self a as
      | some q =>
        rw [hrb] at hp
        dsimp only at hp
        split at hp
        · cases hp
          exact List.sublist_cons_self a as
        · cases hp
          exact (ih hrb).cons₂ a
    · rw [if_neg ha] at hp
      cases hrb : removeBest as with
      | none =>
        rw [hrb] at hp
        dsimp only at hp
        cases hp
      | some q =>
        rw [hrb] at hp
        dsimp only at hp
        cases hp
        exact (ih hrb).cons₂ a

lemma evictLoop_sublist (budget : Nat) :
    ∀ (fuel : Nat) (es : List CacheEntry), (evictLoop budget fuel es).Sublist es := by
  intro fuel
  induction fuel with
  | zero =>
    intro es
    exact List.Sublist.refl es
  | succ n ih =>
    intro es
    unfold evictLoop
    split
    · exact List.Sublist.refl es
    · cases hrb : removeBest es with
      | none => exact List.Sublist.refl es
      | some p => exact (ih p.2).trans (removeBest_sublist hrb)

lemma evictRun_sublist (budget : Nat) (m : CacheManager) :
    ((evictRun budget m).entries).Sublist m.entries := by
  unfold evictRun
  refine (evictLoop_sublist budget _ _).trans ?_
  unfold dropInvalidated
  exact List.filter_sublist m.entries

lemma uniqueLive_invalidatePath {es : List CacheEntry} {path : String}
    (hu : uniqueLive es) : uniqueLive (invalidatePath es path) := by
  intro a' ha' b' hb' hla hlb hpab
  unfold invalidatePath at ha' hb'
  obtain ⟨a, hamem, hae⟩ := List.mem_map.mp ha'
  obtain ⟨b, hbmem, hbe⟩ := List.mem_map.mp hb'
  by_cases hga : (a.path == path && a.status.isLive) = true
  · rw [if_pos hga] at hae
    subst hae
    exact absurd hla (by simp [EntryStatus.isLive])
  · rw [if_neg hga] at hae
    subst hae
    by_cases hgb : (b.path == path && b.status.isLive) = true
    · rw [if_pos hgb] at hbe
      subst hbe
      exact absurd hlb (by simp [EntryStatus.isLive])
    · rw [if_neg hgb] at hbe
      subst hbe
      exact hu a hamem b hbmem hla hlb hpab

lemma newEntry_live (store : ObjectStore) (path : String) (gen now : Nat) :
    (newEntry store path gen now).status.isLive = true := by
  rfl

lemma invalidatePath_live_path {es : List CacheEntry} {path : String} {x : CacheEntry}
    (hx : x ∈ invalidatePath es path) (hlx : x.status.isLive = true) :
    (x.path == path) = false := by
  unfold invalidatePath at hx
  obtain ⟨a, hamem, hae⟩ := List.mem_map.mp hx
  by_cases hga : (a.path == path && a.status.isLive) = true
  · rw [if_pos hga] at hae
    subst hae
    exact absurd hlx (by simp [EntryStatus.isLive])
  · rw [if_neg hga] at hae
    subst hae
    cases hq : (a.path == path) with
    | false => rfl
    | true =>
      rw [hq, Bool.true_and] at hga
      exact absurd hlx hga

lemma uniqueLive_resolve {store : ObjectStore} {m : CacheManager} {path : String}
    {gen now : Nat} {cc : Bool} (hu : uniqueLive m.entries) :
    uniqueLive (resolve store m path gen now cc).2.entries := by
  unfold resolve
  cases hfl : findLive m.entries path with
  | some e0 =>
    dsimp only
    by_cases hg : e0.generation = gen
    · rw [if_pos hg]
      exact hu
    · rw [if_neg hg]
      cases cc with
      | true =>
        rw [if_pos rfl]
        intro a ha b hb hla hlb hpab
        rcases List.mem_cons.mp ha with h1 | h2
        · rcases List.mem_cons.mp hb with h3 | h4
          · rw [h1, h3]
          · subst h1
            have := invalidatePath_live_path h4 hlb
            rw [← hpab] at this
            simp [newEntry] at this
        · rcases List.mem_cons.mp hb with h3 | h4
          · subst h3
            have := invalidatePath_live_path h2 hla
            rw [hpab] at this
            simp [newEntry] at this
          · exact uniqueLive_invalidatePath hu a h2 b h4 hla hlb hpab
      | false =>
        simp only [Bool.false_eq_true, if_false]
        exact uniqueLive_invalidatePath hu
  | none =>
    dsimp only
    cases cc with
    | true =>
      rw [if_pos rfl]
      intro a ha b hb hla hlb hpab
      rcases List.mem_cons.mp ha with h1 | h2
      · rcases List.mem_cons.mp hb with h3 | h4
        · rw [h1, h3]
        · subst h1
          have hfb : findLive m.entries path ≠ none := by
            have hbp : b.path = path := by
              rw [← hpab]
              rfl
            intro hnone
            have hfind := List.find?_eq_none.mp hnone b h4
            rw [hbp] at hfind
            simp [hlb] at hfind
          exact absurd hfl hfb
      · rcases List.mem_cons.mp hb with h3 | h4
        · subst h3
          have hfa : findLive m.entries path ≠ none := by
            have hap : a.path = path := by
              rw [hpab]
              rfl
            intro hnone
            have hfind := List.find?_eq_none.mp hnone a h2
            rw [hap] at hfind
            simp [hla] at hfind
          exact absurd hfl hfa
        · exact hu a h2 b h4 hla hlb hpab
    | false =>
      simp only [Bool.false_eq_true, if_false]
      exact hu

lemma resolve_entry_mem {store : ObjectStore} {m : CacheManager} {path : String}
    {gen now : Nat} {cc : Bool} {e : CacheEntry} {m' : CacheManager}
    (h : resolve store m path gen now cc = (ResolveResult.entry e, m')) :
    e ∈ m'.entries ∧ e.status.isLive = true := by
  unfold resolve at h
  cases hfl : findLive m.entries path with
  | some e0 =>
    rw [hfl] at h
    dsimp only at h
    by_cases hg : e0.generation = gen
    · rw [if_pos hg] at h
      cases h
      exact ⟨(findLive_props hfl).1, (findLive_props hfl).2.2⟩
    · rw [if_neg hg] at h
      cases cc with
      | true =>
        rw [if_pos rfl] at h
        cases h
        exact ⟨List.mem_cons_self _ _, rfl⟩
      | false =>
        simp at h
  | none =>
    rw [hfl] at h
    dsimp only at h
    cases cc with
    | true =>
      rw [if_pos rfl] at h
      cases h
      exact ⟨List.mem_cons_self _ _, rfl⟩
    | false =>
      simp at h

lemma startJob_livewm (m : CacheManager) (path : String) (gen : Nat)
    (q : String) (g0 : Nat) :
    livewm (startJob m path gen) q g0 = livewm m q g0 := by
  unfold startJob
  split
  · rfl
  · rfl

lemma resolve_livewm_forward {store : ObjectStore} {m : CacheManager} {path : String}
    {gen now : Nat} {cc : Bool} {q : String} {g0 w : Nat}
    (hpre : livewm m q g0 = some w) :
    livewm (resolve store m path gen now cc).2 q g0 = none ∨
      ∃ w2, livewm (resolve store m path gen now cc).2 q g0 = some w2 ∧ w ≤ w2 := by
  unfold resolve
  cases hfl : findLive m.entries path with
  | some e0 =>
    dsimp only
    by_cases hg : e0.generation = gen
    · rw [if_pos hg]
      exact Or.inr ⟨w, hpre, le_refl w⟩
    · rw [if_neg hg]
      cases cc with
      | true =>
        rw [if_pos rfl]
        by_cases hq : q = path
        · subst hq
          obtain ⟨e1, hfl1, hgen1, hwm1⟩ := livewm_some_props hpre
          rw [hfl] at hfl1
          cases hfl1
          left
          unfold livewm
          have hfpost : findLive
              (newEntry store q gen now :: invalidatePath m.entries q) q =
              some (newEntry store q gen now) := by
            unfold findLive
            exact List.find?_cons_of_pos _ (by simp [newEntry, EntryStatus.isLive])
          rw [hfpost]
          dsimp only
          rw [if_neg]
          intro hcontra
          have hgg : gen = g0 := hcontra
          exact hg (hgen1.trans hgg.symm)
        · right
          refine ⟨w, ?_, le_refl w⟩
          unfold livewm at hpre ⊢
          have hbeq : ((newEntry store path gen now).path == q) = false := by
            rw [beq_eq_false_iff_ne]
            intro hc
            exact hq (hc.symm)
          rw [findLive_cons_ne hbeq, findLive_invalidatePath_ne hq]
          exact hpre
      | false =>
        simp only [Bool.false_eq_true, if_false]
        by_cases hq : q = path
        · subst hq
          left
          unfold livewm
          rw [findLive_invalidatePath_self]
        · right
          refine ⟨w, ?_, le_refl w⟩
          unfold livewm at hpre ⊢
          rw [findLive_invalidatePath_ne hq]
          exact hpre
  | none =>
    dsimp only
    cases cc with
    | true =>
      rw [if_pos rfl]
      by_cases hq : q = path
      · subst hq
        obtain ⟨e1, hfl1, _, _⟩ := livewm_some_props hpre
        rw [hfl] at hfl1
        cases hfl1
      · right
        refine ⟨w, ?_, le_refl w⟩
        unfold livewm at hpre ⊢
        have hbeq : ((newEntry store path gen now).path == q) = false := by
          rw [beq_eq_false_iff_ne]
          intro hc
          exact hq (hc.symm)
        rw [findLive_cons_ne hbeq]
        exact hpre
    | false =>
      simp only [Bool.false_eq_true, if_false]
      exact Or.inr ⟨w, hpre, le_refl w⟩

lemma updateEntry_livewm_le {m : CacheManager} {eOld e2 : CacheEntry}
    (hu : uniqueLive m.entries) (hmem : eOld ∈ m.entries)
    (hlive : eOld.status.isLive = true)
    (hkeyp : e2.path = eOld.path) (hkeyg : e2.generation = eOld.generation)
    (hlive2 : e2.status.isLive = true)
    (hwmle : eOld.downloadedBytes ≤ e2.downloadedBytes) :
    ∀ (q : String) (g0 w w' : Nat), livewm m q g0 = some w →
      livewm (updateEntry m e2) q g0 = some w' → w ≤ w' := by
  intro q g0 w w' hpre hpost
  refine livewm_map_guarded (f := fun _ => e2) ?_ q g0 w w' hpre hpost
  intro x hx hg
  rw [Bool.and_eq_true, Bool.and_eq_true] at hg
  have hxp : x.path = e2.path := beq_iff_eq.mp hg.1.1
  have hxg : x.generation = e2.generation := by
    have := hg.1.2
    simpa using this
  have hxl : x.status.isLive = true := hg.2
  have hxold : x = eOld :=
    hu x hx eOld hmem hxl hlive (hxp.trans hkeyp)
  subst hxold
  exact ⟨hxp.symm, hxg.symm, hlive2, hwmle⟩

lemma updateEntry_livewm_none {m : CacheManager} {e2 : CacheEntry}
    (hlive2 : e2.status.isLive = true) {q : String} {g0 : Nat}
    (hpre : livewm m q g0 = none) :
    livewm (updateEntry m e2) q g0 = none := by
  have hmap : findLive (m.entries.map fun e =>
      if e.path == e2.path && e.generation == e2.generation && e.status.isLive
        then e2 else e) q =
      Option.map (fun e =>
        if e.path == e2.path && e.generation == e2.generation && e.status.isLive
          then e2 else e) (findLive m.entries q) := by
    refine findLive_map_pred fun x hx => ?_
    by_cases hg : (x.path == e2.path && x.generation == e2.generation && x.status.isLive) = true
    · rw [if_pos hg]
      rw [Bool.and_eq_true, Bool.and_eq_true] at hg
      have hxp : x.path = e2.path := beq_iff_eq.mp hg.1.1
      rw [← hxp, hlive2, hg.2]
    · rw [if_neg hg]
  unfold livewm at hpre ⊢
  unfold updateEntry
  dsimp only
  rw [hmap]
  cases hfl : findLive m.entries q with
  | none => rfl
  | some e =>
    rw [hfl] at hpre
    dsimp only [Option.map] at hpre ⊢
    by_cases hgen : e.generation = g0
    · rw [if_pos hgen] at hpre
      cases hpre
    · by_cases hg : (e.path == e2.path && e.generation == e2.generation && e.status.isLive) = true
      · rw [if_pos hg]
        rw [Bool.and_eq_true, Bool.and_eq_true] at hg
        have hxg : e.generation = e2.generation := by
          have := hg.1.2
          simpa using this
        rw [if_neg]
        rw [← hxg]
        exact hgen
      · rw [if_neg hg]
        rw [if_neg hgen]

lemma handleRead_livewm {store : ObjectStore} {chunk threshold : Nat} {cc : Bool}
    {now : Nat} {h : CacheHandle} {m : CacheManager} {off len : Nat}
    (hu : uniqueLive m.entries) :
    ∀ (q : String) (g0 w w' : Nat), livewm m q g0 = some w →
      livewm (handleRead store chunk threshold cc now h m off len).mgr q g0 = some w' →
      w ≤ w' := by
  intro q g0 w w' hpre hpost
  unfold handleRead at hpost
  split at hpost
  · rw [hpre] at hpost
    cases hpost
    exact le_refl w
  · split at hpost
    · rename_i m1 heq
      have hm1 : (resolve store m h.path h.expectedGen now cc).2 = m1 := by rw [heq]
      rcases @resolve_livewm_forward store m h.path h.expectedGen now cc q g0 w hpre with
        hnone | ⟨w2, hsome, hle⟩
      · rw [hm1, hpost] at hnone
        cases hnone
      · rw [hm1, hpost] at hsome
        cases hsome
        exact hle
    · rename_i e m1 heq
      have hmemlive := resolve_entry_mem heq
      have hu1 : uniqueLive m1.entries := by
        have h2 : m1 = (resolve store m h.path h.expectedGen now cc).2 := by rw [heq]
        rw [h2]
        exact uniqueLive_resolve hu
      have hm1e : (resolve store m h.path h.expectedGen now cc).2 = m1 := by rw [heq]
      have hres := @resolve_livewm_forward store m h.path h.expectedGen now cc q g0 w hpre
      rw [hm1e] at hres
      have husj : uniqueLive (startJob m1 h.path h.expectedGen).entries := by
        rw [startJob_entries]
        exact hu1
      have hmemsj : e ∈ (startJob m1 h.path h.expectedGen).entries := by
        rw [startJob_entries]
        exact hmemlive.1
      have hressj : livewm (startJob m1 h.path h.expectedGen) q g0 = none ∨
          ∃ w2, livewm (startJob m1 h.path h.expectedGen) q g0 = some w2 ∧ w ≤ w2 := by
        rw [startJob_livewm]
        exact hres
      have hupd : ∀ (mm : CacheManager) (e2 : CacheEntry), uniqueLive mm.entries →
          e ∈ mm.entries → e2.path = e.path → e2.generation = e.generation →
          e2.status.isLive = true → e.downloadedBytes ≤ e2.downloadedBytes →
          (livewm mm q g0 = none ∨ ∃ w2, livewm mm q g0 = some w2 ∧ w ≤ w2) →
          ∀ w'', livewm (updateEntry mm e2) q g0 = some w'' → w ≤ w'' := by
        intro mm e2 humm hmemm hp hg hl hwm hdisj w'' hpost2
        rcases hdisj with hnone | ⟨w2, hsome, hle⟩
        · rw [updateEntry_livewm_none hl hnone] at hpost2
          cases hpost2
        · have hstep := updateEntry_livewm_le humm hmemm hmemlive.2 hp hg hl hwm
            q g0 w2 w'' hsome hpost2
          omega
      dsimp only at hpost
      split at hpost
      · split at hpost
        · try dsimp only at hpost
          exact hupd (startJob m1 h.path h.expectedGen) { e with lastAccess := now }
            husj hmemsj rfl rfl hmemlive.2 (le_refl _) hressj w' hpost
        · try dsimp only at hpost
          exact hupd m1 { e with lastAccess := now } hu1 hmemlive.1 rfl rfl
            hmemlive.2 (le_refl _) hres w' hpost
      · split at hpost
        · split at hpost
          · split at hpost
            · try dsimp only at hpost
              exact hupd (startJob m1 h.path h.expectedGen)
                { (jobRunTo store chunk e (off + len)).1 with lastAccess := now }
                husj hmemsj
                (jobRunTo_key store chunk e (off + len)).1
                (jobRunTo_key store chunk e (off + len)).2.1
                (jobRunTo_live (off + len) hmemlive.2)
                (jobRunTo_wm_le store chunk e (off + len)) hressj w' hpost
            · try dsimp only at hpost
              exact hupd (startJob m1 h.path h.expectedGen)
                (jobRunTo store chunk e (off + len)).1 husj hmemsj
                (jobRunTo_key store chunk e (off + len)).1
                (jobRunTo_key store chunk e (off + len)).2.1
                (jobRunTo_live (off + len) hmemlive.2)
                (jobRunTo_wm_le store chunk e (off + len)) hressj w' hpost
          · try dsimp only at hpost
            rcases hressj with hnone | ⟨w2, hsome, hle⟩
            · rw [hpost] at hnone
              cases hnone
            · rw [hpost] at hsome
              cases hsome
              exact hle
        · split at hpost
          · split at hpost
            · try dsimp only at hpost
              exact hupd m1
                { (jobRunTo store chunk e (off + len)).1 with lastAccess := now }
                hu1 hmemlive.1
                (jobRunTo_key store chunk e (off + len)).1
                (jobRunTo_key store chunk e (off + len)).2.1
                (jobRunTo_live (off + len) hmemlive.2)
                (jobRunTo_wm_le store chunk e (off + len)) hres w' hpost
            · try dsimp only at hpost
              exact hupd m1 (jobRunTo store chunk e (off + len)).1 hu1 hmemlive.1
                (jobRunTo_key store chunk e (off + len)).1
                (jobRunTo_key store chunk e (off + len)).2.1
                (jobRunTo_live (off + len) hmemlive.2)
                (jobRunTo_wm_le store chunk e (off + len)) hres w' hpost
          · try dsimp only at hpost
            rcases hres with hnone | ⟨w2, hsome, hle⟩
            · rw [hpost] at hnone
              cases hnone
            · rw [hpost] at hsome
              cases hsome
              exact hle

lemma jobAdvance_livewm {store : ObjectStore} {chunk : Nat} {m : CacheManager}
    {path : String} {gen : Nat} :
    ∀ (q : String) (g0 w w' : Nat), livewm m q g0 = some w →
      livewm (jobAdvance store chunk m path gen) q g0 = some w' → w ≤ w' := by
  intro q g0 w w' hpre hpost
  refine livewm_map_guarded (f := fun x => (jobStepNet store chunk x).1) ?_
    q g0 w w' hpre hpost
  intro x _ _
  exact ⟨(jobStepNet_key store chunk x).1, (jobStepNet_key store chunk x).2.1,
    jobStepNet_live store chunk x, jobStepNet_wm_le store chunk x⟩

lemma adjustReader_livewm {m : CacheManager} {path : String} {gen : Nat}
    {f0 : Nat → Nat} :
    ∀ (q : String) (g0 w w' : Nat), livewm m q g0 = some w →
      livewm (adjustReader m path gen f0) q g0 = some w' → w ≤ w' := by
  intro q g0 w w' hpre hpost
  refine livewm_map_guarded
    (f := fun x => { x with readerCount := f0 x.readerCount }) ?_ q g0 w w' hpre hpost
  intro x _ hg
  have hxl : x.status.isLive = true := ((Bool.and_eq_true _ _).mp hg).2
  exact ⟨rfl, rfl, hxl, le_refl _⟩

lemma invalidate_livewm {m : CacheManager} {path q : String} {g0 w w' : Nat}
    (hpre : livewm m q g0 = some w)
    (hpost : livewm (CacheManager.mk (invalidatePath m.entries path) m.jobs) q g0 =
      some w') : w ≤ w' := by
  by_cases hq : q = path
  · subst hq
    unfold livewm at hpost
    rw [findLive_invalidatePath_self] at hpost
    cases hpost
  · unfold livewm at hpre hpost
    rw [findLive_invalidatePath_ne hq] at hpost
    rw [hpre] at hpost
    cases hpost
    exact le_refl w

lemma durable_invalidatePath {es : List CacheEntry} {path : String}
    (hd : ∀ e ∈ es, e.downloadedBytes ≤ e.fileLen) :
    ∀ x ∈ invalidatePath es path, x.downloadedBytes ≤ x.fileLen := by
  intro x hx
  unfold invalidatePath at hx
  obtain ⟨a, hamem, hae⟩ := List.mem_map.mp hx
  by_cases hg : (a.path == path && a.status.isLive) = true
  · rw [if_pos hg] at hae
    subst hae
    exact hd a hamem
  · rw [if_neg hg] at hae
    subst hae
    exact hd a hamem

lemma durable_updateEntry {m : CacheManager} {e2 : CacheEntry}
    (hd : wmDurable m) (hd2 : e2.downloadedBytes ≤ e2.fileLen) :
    wmDurable (updateEntry m e2) := by
  intro x hx
  unfold updateEntry at hx
  obtain ⟨a, hamem, hae⟩ := List.mem_map.mp hx
  by_cases hg : (a.path == e2.path && a.generation == e2.generation && a.status.isLive) = true
  · rw [if_pos hg] at hae
    subst hae
    exact hd2
  · rw [if_neg hg] at hae
    subst hae
    exact hd a hamem

lemma durable_resolve {store : ObjectStore} {m : CacheManager} {path : String}
    {gen now : Nat} {cc : Bool} (hd : wmDurable m) :
    wmDurable (resolve store m path gen now cc).2 := by
  unfold resolve
  cases hfl : findLive m.entries path with
  | some e0 =>
    dsimp only
    by_cases hg : e0.generation = gen
    · rw [if_pos hg]
      exact hd
    · rw [if_neg hg]
      cases cc with
      | true =>
        rw [if_pos rfl]
        intro x hx
        rcases List.mem_cons.mp hx with h1 | h2
        · subst h1
          exact le_refl _
        · exact durable_invalidatePath hd x h2
      | false =>
        simp only [Bool.false_eq_true, if_false]
        exact fun x hx => durable_invalidatePath hd x hx
  | none =>
    dsimp only
    cases cc with
    | true =>
      rw [if_pos rfl]
      intro x hx
      rcases List.mem_cons.mp hx with h1 | h2
      · subst h1
        exact le_refl _
      · exact hd x h2
    | false =>
      simp only [Bool.false_eq_true, if_false]
      exact hd

lemma resolve_entry_durable {store : ObjectStore} {m : CacheManager} {path : String}
    {gen now : Nat} {cc : Bool} {e : CacheEntry} {m' : CacheManager}
    (hd : wmDurable m)
    (h : resolve store m path gen now cc = (ResolveResult.entry e, m')) :
    e.downloadedBytes ≤ e.fileLen := by
  rcases (resolve_entry_props h).2.2 with hmem | hnew
  · exact hd e hmem
  · subst hnew
    exact le_refl _

lemma durable_handleRead {store : ObjectStore} {chunk threshold : Nat}
    {cc : Bool} {now : Nat} {h : CacheHandle} {m : CacheManager} {off len : Nat}
    (hd : wmDurable m) :
    wmDurable (handleRead store chunk threshold cc now h m off len).mgr := by
  unfold handleRead
  split
  · exact hd
  · split
    · rename_i m1 heq
      have h2 : m1 = (resolve store m h.path h.expectedGen now cc).2 := by
        rw [heq]
      rw [h2]
      exact durable_resolve hd
    · rename_i e m1 heq
      have hm1 : wmDurable m1 := by
        have h2 : m1 = (resolve store m h.path h.expectedGen now cc).2 := by
          rw [heq]
        rw [h2]
        exact durable_resolve hd
      have hde : e.downloadedBytes ≤ e.fileLen := resolve_entry_durable hd heq
      have hsj : wmDurable (startJob m1 h.path h.expectedGen) := by
        intro x hx
        rw [startJob_entries] at hx
        exact hm1 x hx
      dsimp only
      split
      · split
        · exact durable_updateEntry hsj hde
        · exact durable_updateEntry hm1 hde
      · split
        · split
          · split
            · exact durable_updateEntry hsj (jobRunTo_durable chunk (off + len) hde)
            · exact durable_updateEntry hsj (jobRunTo_durable chunk (off + len) hde)
          · exact hsj
        · split
          · split
            · exact durable_updateEntry hm1 (jobRunTo_durable chunk (off + len) hde)
            · exact durable_updateEntry hm1 (jobRunTo_durable chunk (off + len) hde)
          · exact hm1

/-- C4: the downloadedBytes watermark of a live entry is monotonically
non-decreasing across every serialized operation of the cache core (so
every reader, whose reads are themselves such operations, observes a
non-decreasing sequence of values): whenever the live entry for a (path,
generation) key publishes watermark w before an operation and w' after
it, w ≤ w' - the value can disappear (invalidation or eviction of the
key) but never go down, and a new key's entry starts at zero only when a
new Entry replaces the old one; moreover no operation ever makes any
entry's watermark exceed the durably written length of its backing
file. -/
theorem c4_watermark_monotone (store : ObjectStore) (chunk threshold : Nat)
    (cc : Bool) (op : SysOp) (m : CacheManager) (hu : uniqueLive m.entries) :
    (∀ (path : String) (gen w w' : Nat),
      livewm m path gen = some w →
      livewm (applySysOp store chunk threshold cc op m) path gen = some w' →
      w ≤ w') ∧
    (wmDurable m → wmDurable (applySysOp store chunk threshold cc op m)) := by
  constructor
  · intro path gen w w' hpre hpost
    cases op with
    | readOp hh off len now =>
      exact handleRead_livewm hu path gen w w' hpre hpost
    | jobOp p g =>
      exact jobAdvance_livewm path gen w w' hpre hpost
    | evictOp budget =>
      exact livewm_sublist hu (evictRun_sublist budget m) path gen w w' hpre hpost
    | invalidateOp p =>
      exact invalidate_livewm hpre hpost
    | acquireOp p g =>
      exact adjustReader_livewm path gen w w' hpre hpost
    | releaseOp p g =>
      exact adjustReader_livewm path gen w w' hpre hpost
    | resolveOp p g now cc2 =>
      dsimp only [applySysOp] at hpost
      rcases @resolve_livewm_forward store m p g now cc2 path gen w hpre with
        hnone | ⟨w2, hsome, hle⟩
      · rw [hpost] at hnone
        cases hnone
      · rw [hpost] at hsome
        cases hsome
        exact hle
  · intro hd
    cases op with
    | readOp hh off len now =>
      exact durable_handleRead hd
    | jobOp p g =>
      intro x hx
      obtain ⟨a, hamem, hae⟩ := List.mem_map.mp hx
      by_cases hg : (a.path == p && a.generation == g && a.status.isLive) = true
      · rw [if_pos hg] at hae
        subst hae
        exact jobStepNet_durable chunk (hd a hamem)
      · rw [if_neg hg] at hae
        subst hae
        exact hd a hamem
    | evictOp budget =>
      intro x hx
      exact hd x ((evictRun_sublist budget m).mem hx)
    | invalidateOp p =>
      exact fun x hx => durable_invalidatePath hd x hx
    | acquireOp p g =>
      intro x hx
      obtain ⟨a, hamem, hae⟩ := List.mem_map.mp hx
      by_cases hg : (a.path == p && a.generation == g && a.status.isLive) = true
      · rw [if_pos hg] at hae
        subst hae
        exact hd a hamem
      · rw [if_neg hg] at hae
        subst hae
        exact hd a hamem
    | releaseOp p g =>
      intro x hx
      obtain ⟨a, hamem, hae⟩ := List.mem_map.mp hx
      by_cases hg : (a.path == p && a.generation == g && a.status.isLive) = true
      · rw [if_pos hg] at hae
        subst hae
        exact hd a hamem
      · rw [if_neg hg] at hae
        subst hae
        exact hd a hamem
    | resolveOp p g now cc2 =>
      exact durable_resolve hd

/-- C4 witness: one Download Job chunk on the half-downloaded `wEntry`
advances its published watermark from 4 to 6 and keeps it below the
durable file length. -/
theorem c4_watermark_monotone_witness :
    uniqueLive wMgr.entries ∧
      livewm wMgr fooPath 1 = some 4 ∧
      livewm (applySysOp wStore 2 3 true (SysOp.jobOp fooPath 1) wMgr) fooPath 1 =
        some 6 ∧
      (4 : Nat) ≤ 6 ∧
      (wmDurable wMgr →
        wmDurable (applySysOp wStore 2 3 true (SysOp.jobOp fooPath 1) wMgr)) := by
  have hu : uniqueLive wMgr.entries := by
    intro a ha b hb _ _ _
    have ha2 : a = wEntry := by
      simpa [wMgr] using ha
    have hb2 : b = wEntry := by
      simpa [wMgr] using hb
    rw [ha2, hb2]
  refine ⟨hu, rfl, rfl, ?_, ?_⟩
  · exact (c4_watermark_monotone wStore 2 3 true (SysOp.jobOp fooPath 1) wMgr hu).1
      fooPath 1 4 6 rfl rfl
  · exact (c4_watermark_monotone wStore 2 3 true (SysOp.jobOp fooPath 1) wMgr hu).2

end GcsFuse
